import Mathlib

/-!
Verification model of the merkle-go core: the xxHash64 primitive and its
streaming digest (the `github.com/cespare/xxhash/v2` dependency used by
`internal/hash`), hex encoding and Go-style hex decoding
(`encoding/hex`), POSIX path helpers (`path/filepath` Clean, Base, Join),
the Merkle tree builder (`internal/tree/builder.go`), the tree codec
(`internal/tree/serializer.go`, with the JSON text layer modelled as a
faithful value round trip: every field of `Node` is marshalled with
`omitempty`, whose omitted zero values decode back to the same zero
values), the comparator (`internal/compare/comparer.go`) and the hashing
pipeline (`internal/walker`, with worker-interleaving modelled as an
arbitrary permutation of the completion order).

Bytes are `Nat` (always < 256 where produced by the code); 64-bit machine
words are `Nat` reduced modulo `2 ^ 64` after every arithmetic operation.
-/

namespace MG

/-- Modulus of 64-bit machine words. -/
def M64 : Nat := 2 ^ 64

/-- 64-bit addition with wrap-around, as Go `+` on `uint64`. -/
def add64 (a b : Nat) : Nat := (a + b) % M64

/-- 64-bit multiplication with wrap-around, as Go `*` on `uint64`. -/
def mul64 (a b : Nat) : Nat := (a * b) % M64

/-- 64-bit subtraction with wrap-around, as Go `-` on `uint64`. -/
def sub64 (a b : Nat) : Nat := (a + (M64 - b % M64)) % M64

/-- 64-bit left rotation: because the shifted-out top bits land exactly in
the zeroed low bits, the bitwise `or` of Go's `bits.RotateLeft64` is an
addition. -/
def rotl64 (x n : Nat) : Nat := ((x % M64) * 2 ^ n % M64 + (x % M64) / 2 ^ (64 - n)) % M64

/-- First xxHash64 prime. -/
def prime1 : Nat := 11400714785074694791
/-- Second xxHash64 prime. -/
def prime2 : Nat := 14029467366897019727
/-- Third xxHash64 prime. -/
def prime3 : Nat := 1609587929392839161
/-- Fourth xxHash64 prime. -/
def prime4 : Nat := 9650029242287828579
/-- Fifth xxHash64 prime. -/
def prime5 : Nat := 2870177450012600261

/-- Little-endian interpretation of a byte list as an unsigned integer
(Go's `binary.LittleEndian.Uint64` / `Uint32` on 8- resp. 4-byte slices). -/
def leBytes (bs : List Nat) : Nat := bs.foldr (fun b acc => b + 256 * acc) 0

/-- The xxHash64 round function `round(acc, lane)`. -/
def xxRound (acc lane : Nat) : Nat := mul64 (rotl64 (add64 acc (mul64 lane prime2)) 31) prime1

/-- The four lane accumulators of the xxHash64 bulk loop. -/
structure XXState where
  v1 : Nat
  v2 : Nat
  v3 : Nat
  v4 : Nat
deriving DecidableEq, Repr

/-- Initial lane accumulators for seed 0. -/
def initState : XXState :=
  ⟨add64 (add64 0 prime1) prime2, add64 0 prime2, 0, sub64 0 prime1⟩

/-- Consume one 32-byte stripe into the four lane accumulators. -/
def stripe (s : XXState) (bs : List Nat) : XXState :=
  ⟨xxRound s.v1 (leBytes (bs.take 8)),
   xxRound s.v2 (leBytes ((bs.drop 8).take 8)),
   xxRound s.v3 (leBytes ((bs.drop 16).take 8)),
   xxRound s.v4 (leBytes ((bs.drop 24).take 8))⟩

/-- Greedily consume full 32-byte stripes from the front of `bs`,
returning the new lane state and the remaining (< 32 bytes) tail. -/
def consumeStripes (s : XXState) (bs : List Nat) : XXState × List Nat :=
  if 32 ≤ bs.length then consumeStripes (stripe s (bs.take 32)) (bs.drop 32)
  else (s, bs)
termination_by bs.length
decreasing_by simp only [List.length_drop]; omega

/-- The xxHash64 `mergeRound` of the finalization. -/
def mergeRound (h v : Nat) : Nat := add64 (mul64 (h ^^^ xxRound 0 v) prime1) prime4

/-- Merge the four lane accumulators into a single 64-bit value. -/
def mergeState (s : XXState) : Nat :=
  let h := add64 (add64 (add64 (rotl64 s.v1 1) (rotl64 s.v2 7)) (rotl64 s.v3 12)) (rotl64 s.v4 18)
  mergeRound (mergeRound (mergeRound (mergeRound h s.v1) s.v2) s.v3) s.v4

/-- Finalization: fold remaining full 8-byte groups of the tail. -/
def tail8 (h : Nat) (bs : List Nat) : Nat × List Nat :=
  if 8 ≤ bs.length then
    tail8 (add64 (mul64 (rotl64 (h ^^^ xxRound 0 (leBytes (bs.take 8))) 27) prime1) prime4)
      (bs.drop 8)
  else (h, bs)
termination_by bs.length
decreasing_by simp only [List.length_drop]; omega

/-- Finalization: fold one remaining 4-byte group of the tail, if any. -/
def tail4 (h : Nat) (bs : List Nat) : Nat × List Nat :=
  if 4 ≤ bs.length then
    (add64 (mul64 (rotl64 (h ^^^ mul64 (leBytes (bs.take 4)) prime1) 23) prime2) prime3,
     bs.drop 4)
  else (h, bs)

/-- Finalization: fold the remaining single bytes of the tail. -/
def tail1 (h : Nat) (bs : List Nat) : Nat :=
  bs.foldl (fun h b => mul64 (rotl64 (h ^^^ mul64 b prime5) 11) prime1) h

/-- The xxHash64 avalanche finalizer. -/
def avalanche (h : Nat) : Nat :=
  let h1 := mul64 (h ^^^ (h >>> 33)) prime2
  let h2 := mul64 (h1 ^^^ (h1 >>> 29)) prime3
  h2 ^^^ (h2 >>> 32)

/-- The streaming xxHash64 digest (`xxhash.Digest`): lane state, the
buffered (< 32 bytes) tail that has not yet formed a full stripe, and the
total number of bytes absorbed. -/
structure Digest where
  state : XXState
  mem : List Nat
  total : Nat
deriving DecidableEq, Repr

/-- A fresh digest, as `xxhash.New()` (seed 0). -/
def Digest.init : Digest := ⟨initState, [], 0⟩

/-- Absorb bytes into the digest (`Digest.Write`): the buffered tail and
the new bytes are consumed greedily in 32-byte stripes, the remainder is
re-buffered.  The library's in-place buffer management realizes exactly
this greedy per-stripe consumption of the concatenated byte stream. -/
def Digest.write (d : Digest) (bs : List Nat) : Digest :=
  let r := consumeStripes d.state (d.mem ++ bs)
  ⟨r.1, r.2, d.total + bs.length⟩

/-- Finalize the digest (`Digest.Sum64`). -/
def Digest.sum64 (d : Digest) : Nat :=
  let h0 := if d.total < 32 then add64 0 prime5 else mergeState d.state
  let h1 := add64 h0 d.total
  let r8 := tail8 h1 d.mem
  let r4 := tail4 r8.1 r8.2
  avalanche (tail1 r4.1 r4.2)

/-- One-shot xxHash64 of a whole byte sequence at seed 0: a fresh digest,
one `Write` of the whole sequence, then `Sum64`. -/
def xxh64 (bs : List Nat) : Nat := (Digest.init.write bs).sum64

/-- Big-endian 8-byte encoding of a 64-bit value
(`binary.BigEndian.PutUint64`, also what `Digest.Sum` appends). -/
def beBytes8 (n : Nat) : List Nat :=
  [n >>> 56 % 256, n >>> 48 % 256, n >>> 40 % 256, n >>> 32 % 256,
   n >>> 24 % 256, n >>> 16 % 256, n >>> 8 % 256, n % 256]

/-- The repository's hash adapter `hash.XXHashFunc`: xxHash64 of the input
(one `Write`, then `Sum64`), big-endian encoded as 8 bytes. -/
def XXHashFunc (data : List Nat) : List Nat := beBytes8 (xxh64 data)

/-- Lowercase hex digit for a value in `[0, 15]`. -/
def hexDigitChar (n : Nat) : Char :=
  if n < 10 then Char.ofNat (48 + n) else Char.ofNat (87 + n)

/-- Two lowercase hex digits of one byte (Go `encoding/hex` encodes
`b >> 4` then `b & 0x0f`). -/
def hexEncodeByte (b : Nat) : List Char :=
  [hexDigitChar (b / 16 % 16), hexDigitChar (b % 16)]

/-- Go's `hex.EncodeToString`: lowercase hex of a byte list. -/
def hexEncode (bs : List Nat) : String := ⟨(bs.map hexEncodeByte).flatten⟩

/-- Go's `hex` digit decoder `fromHexChar` (accepts `0-9`, `a-f`, `A-F`). -/
def fromHexChar (c : Char) : Option Nat :=
  if 48 ≤ c.toNat ∧ c.toNat ≤ 57 then some (c.toNat - 48)
  else if 97 ≤ c.toNat ∧ c.toNat ≤ 102 then some (c.toNat - 87)
  else if 65 ≤ c.toNat ∧ c.toNat ≤ 70 then some (c.toNat - 55)
  else none

/-- Character-pair decoding underlying Go's `hex.DecodeString`: decode
pairs left to right and stop at the first invalid pair or odd trailing
character, returning the bytes decoded so far (Go's `DecodeString`
returns `dst[:n]` together with the error, and `tree.Build` ignores the
error and uses the returned prefix). -/
def hexDecodeList : List Char → List Nat
  | c1 :: c2 :: rest =>
    match fromHexChar c1, fromHexChar c2 with
    | some a, some b => (a * 16 + b) :: hexDecodeList rest
    | _, _ => []
  | _ => []

/-- Go's `hex.DecodeString` as used by the builder: the decoded prefix,
the error being discarded. -/
def hexDecodeGo (s : String) : List Nat := hexDecodeList s.data

/-- Byte encoding of an ASCII string (Go `[]byte(s)`; every string this
program feeds to the hash — hex digests and the `"empty-tree"` marker —
is ASCII, where UTF-8 bytes and code points coincide). -/
def strBytes (s : String) : List Nat := s.data.map Char.toNat

/-- Byte-wise lexicographic `≤` on character lists (Go's `<=` on
strings; on UTF-8 text byte order and code-point order coincide). -/
def listLe : List Char → List Char → Bool
  | [], _ => true
  | _ :: _, [] => false
  | c :: cs, d :: ds =>
    if c.toNat < d.toNat then true
    else if d.toNat < c.toNat then false
    else listLe cs ds

/-- Byte-wise lexicographic `<` on character lists (Go's `<` on
strings). -/
def listLt : List Char → List Char → Bool
  | [], [] => false
  | [], _ :: _ => true
  | _ :: _, [] => false
  | c :: cs, d :: ds =>
    if c.toNat < d.toNat then true
    else if d.toNat < c.toNat then false
    else listLt cs ds

/-- Go string order `s <= t`, on the underlying characters. -/
def strLe (a b : String) : Prop := listLe a.data b.data = true

/-- Go string order `s < t`, on the underlying characters. -/
def strLt (a b : String) : Prop := listLt a.data b.data = true

instance : DecidableRel strLe := fun _ _ => instDecidableEqBool _ _

instance : DecidableRel strLt := fun _ _ => instDecidableEqBool _ _

/-- Prefix test on character lists (Go's `strings.HasPrefix`). -/
def listHasPfx : List Char → List Char → Bool
  | _, [] => true
  | [], _ :: _ => false
  | c :: cs, d :: ds => c = d && listHasPfx cs ds

/-- Split a character list on `'/'` (Go's `strings.Split` with
separator `"/"`); the result is always non-empty. -/
def splitOnSlash : List Char → List (List Char)
  | [] => [[]]
  | c :: rest =>
    match splitOnSlash rest with
    | [] => [[c]]
    | h :: t => if c = '/' then [] :: h :: t else (c :: h) :: t

/-- Join path components with `'/'` separators. -/
def intercalateSlash : List (List Char) → List Char
  | [] => []
  | [x] => x
  | x :: y :: t => x ++ '/' :: intercalateSlash (y :: t)

/-- Stack phase of Go's `path.Clean` (and `filepath.Clean` on POSIX):
process the slash-separated components left to right, dropping empty and
`.` components, resolving `..` against the stack (an unmatched `..` is
dropped when the path is rooted, kept otherwise). -/
def cleanStack (rooted : Bool) : List (List Char) → List (List Char) → List (List Char)
  | stack, [] => stack.reverse
  | stack, c :: cs =>
    if c = [] ∨ c = ['.'] then cleanStack rooted stack cs
    else if c = ['.', '.'] then
      match stack with
      | t :: rest =>
        if t = ['.', '.'] then cleanStack rooted (c :: t :: rest) cs
        else cleanStack rooted rest cs
      | [] => if rooted then cleanStack rooted [] cs else cleanStack rooted [['.', '.']] cs
    else cleanStack rooted (c :: stack) cs

/-- Go's `filepath.Clean` on POSIX (`path.Clean`). -/
def goClean (p : String) : String :=
  if p = "" then "."
  else
    let rooted := listHasPfx p.data ['/']
    let out := intercalateSlash (cleanStack rooted [] (splitOnSlash p.data))
    if rooted then ⟨'/' :: out⟩
    else if out = [] then "." else ⟨out⟩

/-- Go's `filepath.Base` on POSIX: strip trailing slashes, then the last
component; `""` gives `"."` and an all-slash path gives `"/"`. -/
def goBase (p : String) : String :=
  if p = "" then "."
  else
    let q := (p.data.reverse.dropWhile (· = '/')).reverse
    if q = [] then "/" else ⟨(splitOnSlash q).getLastD q⟩

/-- Go's `filepath.Join` on two elements: non-empty elements joined with
`"/"`, then cleaned; all-empty input gives `""`. -/
def goJoin (a b : String) : String :=
  if a = "" ∧ b = "" then ""
  else if a = "" then goClean b
  else if b = "" then goClean a
  else goClean ⟨a.data ++ '/' :: b.data⟩

/-- One file's record in the flat map (`tree.FileData`); `ModTime` is
kept as the Unix-seconds value that `Build` extracts via
`ModTime.Unix()` and the codec stores in the `mtime` field. -/
structure FileData where
  Hash : String
  Size : Int
  ModTime : Int
deriving DecidableEq, Repr

/-- A Merkle tree node (`tree.Node`): hash, optional children, and the
leaf-only path/size/mtime fields (Go zero values `""`/`0` when unset). -/
inductive Node where
  | mk (hash : String) (left right : Option Node) (path : String) (size mtime : Int)

mutual

/-- Decidable equality of nodes (the nested `Option` blocks deriving). -/
def nodeDecEq : (a b : Node) → Decidable (a = b)
  | .mk h1 l1 r1 p1 s1 m1, .mk h2 l2 r2 p2 s2 m2 =>
    match String.decEq h1 h2 with
    | isFalse hn => isFalse (by simp [hn])
    | isTrue hh =>
      match optNodeDecEq l1 l2 with
      | isFalse hn => isFalse (by simp [hn])
      | isTrue hl =>
        match optNodeDecEq r1 r2 with
        | isFalse hn => isFalse (by simp [hn])
        | isTrue hr =>
          match String.decEq p1 p2 with
          | isFalse hn => isFalse (by simp [hn])
          | isTrue hp =>
            match decEq s1 s2 with
            | isFalse hn => isFalse (by simp [hn])
            | isTrue hs =>
              match decEq m1 m2 with
              | isFalse hn => isFalse (by simp [hn])
              | isTrue hm => isTrue (by rw [hh, hl, hr, hp, hs, hm])

/-- Decidable equality of optional nodes. -/
def optNodeDecEq : (a b : Option Node) → Decidable (a = b)
  | none, none => isTrue rfl
  | none, some _ => isFalse (by simp)
  | some _, none => isFalse (by simp)
  | some x, some y =>
    match nodeDecEq x y with
    | isTrue h => isTrue (by rw [h])
    | isFalse h => isFalse (by simp [h])

end

instance : DecidableEq Node := nodeDecEq

/-- Hash field of a node. -/
def Node.hash : Node → String
  | .mk h _ _ _ _ _ => h

/-- Left child of a node. -/
def Node.left : Node → Option Node
  | .mk _ l _ _ _ _ => l

/-- Right child of a node. -/
def Node.right : Node → Option Node
  | .mk _ _ r _ _ _ => r

/-- Path field of a node (empty on internal nodes). -/
def Node.path : Node → String
  | .mk _ _ _ p _ _ => p

/-- Size field of a node. -/
def Node.size : Node → Int
  | .mk _ _ _ _ s _ => s

/-- Mtime field of a node. -/
def Node.mtime : Node → Int
  | .mk _ _ _ _ _ m => m

/-- The aggregate (`tree.MerkleTree`).  The `Files` map is represented as
an association list; theorems about map-valued inputs carry a
distinct-keys hypothesis. -/
structure MerkleTree where
  Root : Node
  RootPath : String
  TotalSize : Int
  Files : List (String × FileData)
deriving DecidableEq

/-- Go's `sort.Strings`: sort in lexicographic byte-wise order. -/
def sortStrings (l : List String) : List String := List.insertionSort strLe l

/-- Relative-path computation of `tree.Build` for one file path, given
the cleaned root: trim the `cleanRoot + "/"` prefix of the cleaned path,
else for the root itself take its base name, else keep the original. -/
def relPath (cleanRoot p : String) : String :=
  let cp := (goClean p).data
  let pre := cleanRoot.data ++ ['/']
  if listHasPfx cp pre then ⟨cp.drop pre.length⟩
  else if cp = cleanRoot.data then goBase ⟨cp⟩
  else p

/-- Leaf node for one file: the file's own content hash is used directly
as the node hash. -/
def leafFor (cleanRoot p : String) (d : FileData) : Node :=
  Node.mk d.Hash none none (relPath cleanRoot p) d.Size d.ModTime

/-- Parent of two nodes: hex-decode the two child hashes (errors
discarded, as in the source), concatenate, hash, hex-encode. -/
def mkParent (a b : Node) : Node :=
  Node.mk (hexEncode (XXHashFunc (hexDecodeGo a.hash ++ hexDecodeGo b.hash)))
    (some a) (some b) "" 0 0

/-- One pairing pass of `tree.Build`: adjacent pairs left to right, an
odd last node paired with itself. -/
def collapse : List Node → List Node
  | a :: b :: rest => mkParent a b :: collapse rest
  | [a] => [mkParent a a]
  | [] => []

/-- Length of one pairing pass. -/
theorem collapse_length : ∀ l : List Node, (collapse l).length = (l.length + 1) / 2
  | [] => by simp [collapse]
  | [_] => by simp [collapse]
  | _ :: _ :: rest => by
    simp only [collapse, List.length_cons, collapse_length rest]
    omega

/-- Repeat the pairing pass until a single node remains (the loop
`for len(currentLevel) > 1`); the empty case is unreachable in `Build`. -/
def buildRoot : List Node → Node
  | [] => Node.mk "" none none "" 0 0
  | [n] => n
  | a :: b :: rest => buildRoot (collapse (a :: b :: rest))
termination_by l => l.length
decreasing_by simp only [collapse_length, List.length_cons]; omega

/-- The sentinel root hash of an empty build: the digest of the constant
`"empty-tree"` marker, hex encoded. -/
def emptyTreeHash : String := hexEncode (XXHashFunc (strBytes "empty-tree"))

/-- The tree builder `tree.Build` (`internal/tree/builder.go`).  The
files map is given as an association list standing for the Go map; the
hash primitive never fails, so the error return is dropped. -/
def Build (files : List (String × FileData)) (rootPath : String) : MerkleTree :=
  match files with
  | [] => ⟨Node.mk emptyTreeHash none none "" 0 0, rootPath, 0, []⟩
  | _ :: _ =>
    let paths := sortStrings (files.map Prod.fst)
    let totalSize := (files.map (fun e => e.2.Size)).sum
    let cleanRoot := goClean rootPath
    let leaves := paths.map (fun p => leafFor cleanRoot p ((files.lookup p).getD ⟨"", 0, 0⟩))
    ⟨buildRoot leaves, rootPath, totalSize, files⟩

/-- The persisted form (`tree.SerializedTree`).  The JSON text layer is
modelled as a faithful value round trip (every `Node` field is marshalled
with `omitempty`, and each omitted zero value unmarshals back to the same
zero value; the shared pointer of a self-paired odd node is marshalled as
two copies, which the value tree `Node` already represents).  The
presentation-only human-readable size string (`formatSize`, a
floating-point rendering excluded from every claim) is not carried. -/
structure SerializedTree where
  Generator : String
  Created : Int
  Root : String
  Tree : Node
deriving DecidableEq

/-- The codec's `tree.Save`: record generator tag, creation time, root
path and the root node. -/
def Save (t : MerkleTree) (now : Int) : SerializedTree :=
  ⟨"merkle-go", now, t.RootPath, t.Root⟩

/-- Go map assignment `m[k] = v`: overwrite an existing key, else add. -/
def mapSet {β : Type} (m : List (String × β)) (k : String) (v : β) :
    List (String × β) :=
  if (m.lookup k).isSome then m.map (fun e => if e.1 = k then (k, v) else e)
  else m ++ [(k, v)]

/-- The recursive walk of `tree.Load`'s `collectLeaves`: at a node with a
non-empty path, add its size to the running total and, when its mtime is
non-zero, insert the absolute-path record; then walk left, then right. -/
def collectNode (root : String) : Node → Int × List (String × FileData) →
    Int × List (String × FileData)
  | .mk h l r p s m, acc =>
    let acc1 : Int × List (String × FileData) :=
      if p ≠ "" then
        (acc.1 + s, if m ≠ 0 then mapSet acc.2 (goJoin root p) ⟨h, s, m⟩ else acc.2)
      else acc
    let acc2 := match l with
      | none => acc1
      | some nl => collectNode root nl acc1
    match r with
    | none => acc2
    | some nr => collectNode root nr acc2

/-- The codec's `tree.Load` on a parsed `SerializedTree`: re-derive the
flat files map and the total size by walking the stored tree. -/
def Load (s : SerializedTree) : MerkleTree :=
  let acc := collectNode s.Root s.Tree (0, [])
  ⟨s.Tree, s.Root, acc.1, acc.2⟩

/-- All walk-visited leaf occurrences of a node (nodes with a non-empty
path), in the walk order of `collectLeaves`; a self-paired child is
visited once per occurrence. -/
def leafOccs : Node → List Node
  | .mk h l r p s m =>
    (if p ≠ "" then [Node.mk h l r p s m] else []) ++
      (match l with | none => [] | some nl => leafOccs nl) ++
      (match r with | none => [] | some nr => leafOccs nr)

/-- Sum of the size field over all walk-visited leaf occurrences. -/
def wsum (n : Node) : Int := ((leafOccs n).map Node.size).sum

/-- Two's-complement wrap-around of Go's `int64`: the representative in
`[-2^63, 2^63)` of `z` modulo `2^64`. -/
def wrap64 (z : Int) : Int := (z + 2 ^ 63) % 2 ^ 64 - 2 ^ 63

/-- The `totalSize` accumulation of `tree.Load`'s `collectLeaves` under
Go's `int64` arithmetic (`totalSize += node.Size` wraps silently on
overflow): at a node with a non-empty path add its size, then walk left,
then right. -/
def collectTotal64 : Node → Int → Int
  | .mk _ l r p s _, acc =>
    let acc1 : Int := if p ≠ "" then wrap64 (acc + s) else acc
    let acc2 : Int := match l with
      | none => acc1
      | some nl => collectTotal64 nl acc1
    match r with
    | none => acc2
    | some nr => collectTotal64 nr acc2

/-- The reloaded `TotalSize` of `tree.Load` under `int64` arithmetic. -/
def loadTotal64 (s : SerializedTree) : Int := collectTotal64 s.Tree 0

/-- `tree.Build`'s `totalSize` accumulation (`totalSize += fileData.Size`)
under `int64` arithmetic. -/
def buildTotal64 (files : List (String × FileData)) : Int :=
  files.foldl (fun acc e => wrap64 (acc + e.2.Size)) 0

/-- Hash-level image of `mkParent`: the pairing of `Build` on the hash
strings alone. -/
def combineH (a b : String) : String :=
  hexEncode (XXHashFunc (hexDecodeGo a ++ hexDecodeGo b))

/-- Hash-level image of one pairing pass. -/
def collapseH : List String → List String
  | a :: b :: rest => combineH a b :: collapseH rest
  | [a] => [combineH a a]
  | [] => []

/-- Length of one hash-level pairing pass. -/
theorem collapseH_length : ∀ l : List String, (collapseH l).length = (l.length + 1) / 2
  | [] => by simp [collapseH]
  | [_] => by simp [collapseH]
  | _ :: _ :: rest => by
    simp only [collapseH, List.length_cons, collapseH_length rest]
    omega

/-- Hash-level image of the full bottom-up pairing: the root hash as a
function of the leaf-level hash strings alone. -/
def buildRootH : List String → String
  | [] => ""
  | [h] => h
  | a :: b :: rest => buildRootH (collapseH (a :: b :: rest))
termination_by l => l.length
decreasing_by simp only [collapseH_length, List.length_cons]; omega

/-- One change entry of a comparison (`compare.Change`; the `ChangeType`
Go string constants `"ADDED"`/`"MODIFIED"`/`"DELETED"` are carried
verbatim). -/
structure Change where
  type : String
  path : String
  OldData : Option FileData
  NewData : Option FileData
deriving DecidableEq

/-- The comparison result (`compare.CompareResult`). -/
structure CompareResult where
  Added : List Change
  Modified : List Change
  Deleted : List Change
deriving DecidableEq

/-- Sort changes by path ascending (`sort.Slice` with a `Path <` less
function; on the distinct paths produced by `Compare` over maps this
order is unique, so the stable insertion sort used here coincides with
any correct implementation of it). -/
def sortChanges (l : List Change) : List Change :=
  List.insertionSort (fun a b => strLe a.path b.path) l

/-- The comparator `compare.Compare` over the two flat files maps: one
pass over the new map classifying added/modified, one pass over the old
map classifying deleted, then each sequence sorted by path.  The Go map
iteration order is immaterial after sorting; the association-list order
stands in for it. -/
def Compare (oldF newF : List (String × FileData)) : CompareResult :=
  let added := (newF.filter (fun e => (oldF.lookup e.1).isNone)).map
    (fun e => Change.mk "ADDED" e.1 none (some e.2))
  let modified := newF.filterMap (fun e =>
    match oldF.lookup e.1 with
    | some o =>
      if o.Hash ≠ e.2.Hash then some (Change.mk "MODIFIED" e.1 (some o) (some e.2)) else none
    | none => none)
  let deleted := (oldF.filter (fun e => (newF.lookup e.1).isNone)).map
    (fun e => Change.mk "DELETED" e.1 (some e.2) none)
  ⟨sortChanges added, sortChanges modified, sortChanges deleted⟩

/-- One file descriptor from the directory walker (`walker.FileInfo`). -/
structure FileInfo where
  Path : String
  Size : Int
  ModTime : Int
deriving DecidableEq

/-- The observable file system for the hashing pipeline: the byte content
behind a path, or `none` when the file cannot be opened.  `hash.HashFile`
on it: the streaming digest of the content (read failures beyond open are
the same skip-and-report error path and are subsumed by `none`). -/
def HashFileModel (fs : String → Option (List Nat)) (path : String) :
    Except String String :=
  match fs path with
  | some content => .ok (hexEncode (beBytes8 (xxh64 content)))
  | none => .error "failed to open file"

/-- The pipeline result (`walker.HashResult`); an error is recorded as
the pair of the offending path and the underlying error, as wrapped by
`fmt.Errorf("%s: %w", path, err)`. -/
structure HashResult where
  Hashes : List (String × String)
  Errors : List (String × String)
deriving DecidableEq

/-- Collect one completed job result, as the collection loop of
`walker.HashFiles`: a failure is appended to the error list, a success is
stored in the hash map. -/
def collectHash (acc : HashResult) (r : String × Except String String) : HashResult :=
  match r.2 with
  | .error e => ⟨acc.Hashes, acc.Errors ++ [(r.1, e)]⟩
  | .ok h => ⟨mapSet acc.Hashes r.1 h, acc.Errors⟩

/-- The hashing pipeline `walker.HashFiles`, with its concurrency
reduced to its observable content: each input descriptor is hashed
exactly once, and the results are collected in some completion order of
the worker pool — an arbitrary permutation of the input list (the worker
count, including the coercion of values ≤ 0 to one worker, only
influences which permutation occurs).  `order` is that completion
order. -/
def HashFiles (fs : String → Option (List Nat)) (order : List FileInfo) : HashResult :=
  (order.map (fun fi => (fi.Path, HashFileModel fs fi.Path))).foldl collectHash ⟨[], []⟩

/-- The digest computation of `hash.HashFile` on a file whose content
arrives in the given read chunks: each chunk is written into one
streaming digest, and the final `Sum64` is big-endian encoded and
hex encoded (`hex.EncodeToString(h.Sum(nil))`).  The source reads in
32 KiB chunks; the chunk decomposition is kept abstract here. -/
def hashFileChunks (chunks : List (List Nat)) : String :=
  hexEncode (beBytes8 ((chunks.foldl Digest.write Digest.init).sum64))

/-- Lowercase hex digit character test (`0-9`, `a-f`). -/
def isLowerHexChar (c : Char) : Bool :=
  (48 ≤ c.toNat && c.toNat ≤ 57) || (97 ≤ c.toNat && c.toNat ≤ 102)

/-- A hash string of the shape produced by the hasher: exactly 16
lowercase hex characters (the hex encoding of an 8-byte digest). -/
def isHexDigest (s : String) : Bool :=
  s.data.length == 16 && s.data.all isLowerHexChar

/-- Key list of an association list standing for a Go map. -/
def keys {β : Type} (l : List (String × β)) : List String := l.map Prod.fst

/-- The per-leaf step of `collectLeaves`, on one visited leaf occurrence. -/
def collectStep (root : String) (acc : Int × List (String × FileData)) (ln : Node) :
    Int × List (String × FileData) :=
  (acc.1 + ln.size,
   if ln.mtime ≠ 0 then mapSet acc.2 (goJoin root ln.path) ⟨ln.hash, ln.size, ln.mtime⟩
   else acc.2)

/-- Whether some pairing level of a bottom-up build over `n` leaves has
odd length greater than one (level lengths are `n`, `⌈n/2⌉`, … down
to 1). -/
def hasOddLevel (n : Nat) : Bool :=
  if n ≤ 1 then false
  else if n % 2 = 1 then true
  else hasOddLevel ((n + 1) / 2)
termination_by n
decreasing_by omega

/-- Sum of the walk sizes over a level of nodes. -/
def Ssum (l : List Node) : Int := (l.map wsum).sum

/-- The leaf level constructed by `Build` on a non-empty files map: one
leaf per sorted path. -/
def buildLeaves (files : List (String × FileData)) (r : String) : List Node :=
  (sortStrings (files.map Prod.fst)).map
    (fun p => leafFor (goClean r) p ((files.lookup p).getD ⟨"", 0, 0⟩))

/-! ### Hex encoding and decoding -/

theorem beBytes8_length (n : Nat) : (beBytes8 n).length = 8 := rfl

theorem beBytes8_lt (n : Nat) : ∀ b ∈ beBytes8 n, b < 256 := by
  intro b hb
  simp only [beBytes8, List.mem_cons, List.not_mem_nil, or_false] at hb
  rcases hb with h | h | h | h | h | h | h | h <;> omega

theorem XXHashFunc_length (data : List Nat) : (XXHashFunc data).length = 8 := rfl

theorem XXHashFunc_lt (data : List Nat) : ∀ b ∈ XXHashFunc data, b < 256 :=
  beBytes8_lt _

theorem fromHexChar_hexDigitChar : ∀ d, d < 16 → fromHexChar (hexDigitChar d) = some d := by
  decide

theorem hexDigitChar_isLower : ∀ d, d < 16 → isLowerHexChar (hexDigitChar d) = true := by
  decide

theorem hexDecodeList_encode :
    ∀ bs : List Nat, (∀ b ∈ bs, b < 256) →
      hexDecodeList ((bs.map hexEncodeByte).flatten) = bs
  | [], _ => rfl
  | b :: rest, h => by
    have hb : b < 256 := h b (List.mem_cons_self _ _)
    have h1 : b / 16 % 16 < 16 := Nat.mod_lt _ (by omega)
    have h2 : b % 16 < 16 := Nat.mod_lt _ (by omega)
    simp only [List.map_cons, List.flatten_cons, hexEncodeByte, List.cons_append,
      List.nil_append, List.append_nil, hexDecodeList, fromHexChar_hexDigitChar _ h1,
      fromHexChar_hexDigitChar _ h2, List.cons.injEq]
    exact ⟨by omega, hexDecodeList_encode rest (fun x hx => h x (List.mem_cons_of_mem _ hx))⟩

theorem hexDecode_hexEncode (bs : List Nat) (h : ∀ b ∈ bs, b < 256) :
    hexDecodeGo (hexEncode bs) = bs :=
  hexDecodeList_encode bs h

theorem isLowerHexChar_elim {c : Char} (h : isLowerHexChar c = true) :
    ∃ a, fromHexChar c = some a ∧ a < 16 ∧ hexDigitChar a = c := by
  simp only [isLowerHexChar, Bool.or_eq_true, Bool.and_eq_true, decide_eq_true_eq] at h
  rcases h with ⟨h1, h2⟩ | ⟨h1, h2⟩
  · refine ⟨c.toNat - 48, ?_, by omega, ?_⟩
    · simp only [fromHexChar, if_pos (And.intro h1 h2)]
    · have : 48 + (c.toNat - 48) = c.toNat := by omega
      simp only [hexDigitChar, if_pos (show c.toNat - 48 < 10 by omega), this,
        Char.ofNat_toNat]
  · refine ⟨c.toNat - 87, ?_, by omega, ?_⟩
    · have hnd : ¬(48 ≤ c.toNat ∧ c.toNat ≤ 57) := by omega
      simp only [fromHexChar, if_neg hnd, if_pos (And.intro h1 h2)]
    · have hge : ¬(c.toNat - 87 < 10) := by omega
      have : 87 + (c.toNat - 87) = c.toNat := by omega
      simp only [hexDigitChar, if_neg hge, this, Char.ofNat_toNat]

theorem hexEncode_decodeList :
    ∀ cs : List Char, (∀ c ∈ cs, isLowerHexChar c = true) → cs.length % 2 = 0 →
      ((hexDecodeList cs).map hexEncodeByte).flatten = cs
  | [], _, _ => rfl
  | [_], _, hlen => by simp at hlen
  | c1 :: c2 :: rest, h, hlen => by
    obtain ⟨a, ha, halt, hac⟩ := isLowerHexChar_elim (h c1 (by simp))
    obtain ⟨b, hb, hblt, hbc⟩ := isLowerHexChar_elim (h c2 (by simp))
    have hdiv : (a * 16 + b) / 16 % 16 = a := by omega
    have hmod : (a * 16 + b) % 16 = b := by omega
    simp only [hexDecodeList, ha, hb, List.map_cons, List.flatten_cons, hexEncodeByte,
      hdiv, hmod, hac, hbc, List.cons_append, List.nil_append, List.cons.injEq,
      true_and]
    exact hexEncode_decodeList rest (fun c hc => h c (by simp [hc]))
      (by simp only [List.length_cons] at hlen ⊢; omega)

theorem hexEncode_hexDecode {s : String} (h : isHexDigest s = true) :
    hexEncode (hexDecodeGo s) = s := by
  simp only [isHexDigest, Bool.and_eq_true, beq_iff_eq, List.all_eq_true] at h
  have := hexEncode_decodeList s.data (fun c hc => h.2 c hc) (by rw [h.1])
  simp only [hexEncode, hexDecodeGo, this]

theorem hexDecodeGo_inj {s1 s2 : String} (h1 : isHexDigest s1 = true)
    (h2 : isHexDigest s2 = true) (h : hexDecodeGo s1 = hexDecodeGo s2) : s1 = s2 := by
  rw [← hexEncode_hexDecode h1, ← hexEncode_hexDecode h2, h]

theorem flatten_map_hexEncodeByte_length (bs : List Nat) :
    ((bs.map hexEncodeByte).flatten).length = 2 * bs.length := by
  induction bs with
  | nil => rfl
  | cons b rest ih =>
    simp only [List.map_cons, List.flatten_cons, List.length_append, ih, hexEncodeByte,
      List.length_cons, List.length_nil]
    omega

theorem isHexDigest_hexEncode {bs : List Nat} (h : bs.length = 8) :
    isHexDigest (hexEncode bs) = true := by
  simp only [isHexDigest, hexEncode, Bool.and_eq_true, beq_iff_eq, List.all_eq_true]
  constructor
  · rw [flatten_map_hexEncodeByte_length, h]
  · intro c hc
    rw [List.mem_flatten] at hc
    obtain ⟨l, hl, hcl⟩ := hc
    rw [List.mem_map] at hl
    obtain ⟨b, _, rfl⟩ := hl
    simp only [hexEncodeByte, List.mem_cons, List.not_mem_nil, or_false] at hcl
    rcases hcl with rfl | rfl
    · exact hexDigitChar_isLower _ (Nat.mod_lt _ (by omega))
    · exact hexDigitChar_isLower _ (Nat.mod_lt _ (by omega))

theorem isHexDigest_combineH (a b : String) : isHexDigest (combineH a b) = true :=
  isHexDigest_hexEncode (XXHashFunc_length _)

theorem hexDecode_length_of_digest {s : String} (h : isHexDigest s = true) :
    (hexDecodeGo s).length = 8 := by
  simp only [isHexDigest, Bool.and_eq_true, beq_iff_eq, List.all_eq_true] at h
  have hlen := congrArg List.length (hexEncode_decodeList s.data h.2 (by rw [h.1]))
  rw [flatten_map_hexEncodeByte_length, h.1] at hlen
  simp only [hexDecodeGo]
  omega

/-! ### Streaming digest: chunking invariance -/

theorem consumeStripes_step (s : XXState) (bs : List Nat) :
    consumeStripes s bs =
      if 32 ≤ bs.length then consumeStripes (stripe s (bs.take 32)) (bs.drop 32)
      else (s, bs) := by
  rw [consumeStripes]

theorem consumeStripes_append :
    ∀ (xs ys : List Nat) (s : XXState),
      consumeStripes s (xs ++ ys) =
        consumeStripes (consumeStripes s xs).1 ((consumeStripes s xs).2 ++ ys)
  | xs, ys, s => by
    by_cases h : 32 ≤ xs.length
    · have htake : (xs ++ ys).take 32 = xs.take 32 := List.take_append_of_le_length h
      have hdrop : (xs ++ ys).drop 32 = xs.drop 32 ++ ys := List.drop_append_of_le_length h
      have hlen : 32 ≤ (xs ++ ys).length := by simp [List.length_append]; omega
      rw [consumeStripes_step s (xs ++ ys), if_pos hlen, htake, hdrop,
        consumeStripes_step s xs, if_pos h]
      exact consumeStripes_append (xs.drop 32) ys (stripe s (xs.take 32))
    · rw [consumeStripes_step s xs, if_neg h]
termination_by xs => xs.length
decreasing_by simp only [List.length_drop]; omega

theorem write_write (d : Digest) (bs cs : List Nat) :
    (d.write bs).write cs = d.write (bs ++ cs) := by
  simp only [Digest.write]
  rw [← List.append_assoc, consumeStripes_append (d.mem ++ bs) cs d.state]
  simp only [Digest.mk.injEq, List.length_append]
  refine ⟨trivial, trivial, by omega⟩

theorem foldl_write_from :
    ∀ (chunks : List (List Nat)) (bs : List Nat),
      chunks.foldl Digest.write (Digest.init.write bs) =
        Digest.init.write (bs ++ chunks.flatten)
  | [], bs => by simp
  | c :: rest, bs => by
    simp only [List.foldl_cons, write_write, List.flatten_cons]
    rw [foldl_write_from rest (bs ++ c), List.append_assoc]

theorem write_nil_init : Digest.init.write [] = Digest.init := by
  simp [Digest.write, Digest.init, consumeStripes_step]

theorem foldl_write (chunks : List (List Nat)) :
    chunks.foldl Digest.write Digest.init = Digest.init.write chunks.flatten := by
  have := foldl_write_from chunks []
  rwa [write_nil_init, List.nil_append] at this

/-! ### Association-list maps -/

theorem lookup_cons_mk {β : Type} (k a : String) (b : β) (t : List (String × β)) :
    List.lookup k ((a, b) :: t) = if k = a then some b else List.lookup k t := by
  by_cases h : k = a
  · subst h
    simp [List.lookup]
  · simp [List.lookup, beq_false_of_ne h, h]

theorem lookup_of_mem_nodup {β : Type} :
    ∀ {l : List (String × β)}, (keys l).Nodup → ∀ {e : String × β}, e ∈ l →
      l.lookup e.1 = some e.2
  | [], _, _, he => absurd he (List.not_mem_nil _)
  | (a, b) :: t, hnd, e, he => by
    simp only [keys, List.map_cons, List.nodup_cons] at hnd
    rcases List.mem_cons.mp he with rfl | ht
    · simp [lookup_cons_mk]
    · have hne : e.1 ≠ a := by
        intro hcontra
        exact hnd.1 (hcontra ▸ List.mem_map_of_mem Prod.fst ht)
      rw [lookup_cons_mk, if_neg hne]
      exact lookup_of_mem_nodup hnd.2 ht

theorem lookup_eq_none_iff {β : Type} :
    ∀ (l : List (String × β)) (k : String), l.lookup k = none ↔ k ∉ keys l
  | [], k => by simp [keys]
  | (a, b) :: t, k => by
    rw [lookup_cons_mk]
    by_cases h : k = a
    · simp [h, keys]
    · simp only [if_neg h, keys, List.map_cons, List.mem_cons]
      rw [lookup_eq_none_iff t k]
      simp [keys, h]

theorem lookup_isSome_iff {β : Type} (l : List (String × β)) (k : String) :
    (l.lookup k).isSome = true ↔ k ∈ keys l := by
  constructor
  · intro h
    by_contra hk
    rw [← lookup_eq_none_iff] at hk
    rw [hk] at h
    simp at h
  · intro h
    cases hs : l.lookup k with
    | none => rw [lookup_eq_none_iff] at hs; exact absurd h hs
    | some v => rfl

theorem lookup_map_value {β γ : Type} (f : β → γ) :
    ∀ (l : List (String × β)) (k : String),
      (l.map (fun e => (e.1, f e.2))).lookup k = (l.lookup k).map f
  | [], _ => rfl
  | (a, b) :: t, k => by
    simp only [List.map_cons, lookup_cons_mk]
    by_cases h : k = a
    · simp [h]
    · rw [if_neg h, if_neg h]
      exact lookup_map_value f t k

theorem lookup_perm {β : Type} {l1 l2 : List (String × β)} (hp : l1.Perm l2)
    (hnd : (keys l1).Nodup) (k : String) : l1.lookup k = l2.lookup k := by
  induction hp with
  | nil => rfl
  | cons x p ih =>
    obtain ⟨a, b⟩ := x
    simp only [keys, List.map_cons, List.nodup_cons] at hnd
    rw [lookup_cons_mk, lookup_cons_mk]
    by_cases h : k = a
    · rw [if_pos h, if_pos h]
    · rw [if_neg h, if_neg h]
      exact ih hnd.2
  | swap x y l =>
    obtain ⟨a, b⟩ := x
    obtain ⟨c, d⟩ := y
    simp only [keys, List.map_cons, List.nodup_cons, List.mem_cons] at hnd
    have hca : c ≠ a := fun hc => hnd.1 (Or.inl hc)
    rw [lookup_cons_mk, lookup_cons_mk, lookup_cons_mk, lookup_cons_mk]
    by_cases h1 : k = c
    · rw [if_pos h1, if_neg (fun hc : k = a => hca (h1.symm.trans hc)), if_pos h1]
    · by_cases h2 : k = a
      · rw [if_neg h1, if_pos h2, if_pos h2]
      · rw [if_neg h1, if_neg h2, if_neg h2, if_neg h1]
  | trans p1 p2 ih1 ih2 =>
    rw [ih1 hnd, ih2 ((p1.map Prod.fst).nodup_iff.mp hnd)]

theorem lookup_mapReplace_self {β : Type} (k : String) (v : β) :
    ∀ m : List (String × β), (m.lookup k).isSome = true →
      (m.map (fun e => if e.1 = k then (k, v) else e)).lookup k = some v
  | [], h => by simp [List.lookup] at h
  | (a, b) :: t, h => by
    by_cases hk : a = k
    · rw [List.map_cons, (by simp [hk] : (if (a, b).1 = k then (k, v) else (a, b)) = (k, v)),
        lookup_cons_mk, if_pos rfl]
    · have hk2 : k ≠ a := fun hc => hk hc.symm
      rw [lookup_cons_mk, if_neg hk2] at h
      rw [List.map_cons, (by simp [hk] : (if (a, b).1 = k then (k, v) else (a, b)) = (a, b)),
        lookup_cons_mk, if_neg hk2]
      exact lookup_mapReplace_self k v t h

theorem lookup_mapReplace_ne {β : Type} {k k2 : String} (v : β) (h : k2 ≠ k) :
    ∀ m : List (String × β),
      (m.map (fun e => if e.1 = k then (k, v) else e)).lookup k2 = m.lookup k2
  | [] => rfl
  | (a, b) :: t => by
    by_cases hk : a = k
    · rw [List.map_cons, (by simp [hk] : (if (a, b).1 = k then (k, v) else (a, b)) = (k, v)),
        lookup_cons_mk, lookup_cons_mk, if_neg h,
        if_neg (fun hc : k2 = a => h (hc.trans hk))]
      exact lookup_mapReplace_ne v h t
    · rw [List.map_cons, (by simp [hk] : (if (a, b).1 = k then (k, v) else (a, b)) = (a, b)),
        lookup_cons_mk, lookup_cons_mk]
      by_cases hx : k2 = a
      · rw [if_pos hx, if_pos hx]
      · rw [if_neg hx, if_neg hx]
        exact lookup_mapReplace_ne v h t

theorem lookup_append_single_of_none {β : Type} (k : String) (v : β) :
    ∀ m : List (String × β), m.lookup k = none → (m ++ [(k, v)]).lookup k = some v
  | [], _ => by simp [lookup_cons_mk]
  | (a, b) :: t, h => by
    rw [lookup_cons_mk] at h
    by_cases hk : k = a
    · rw [if_pos hk] at h
      simp at h
    · rw [if_neg hk] at h
      rw [List.cons_append, lookup_cons_mk, if_neg hk]
      exact lookup_append_single_of_none k v t h

theorem lookup_append_single_ne {β : Type} {k k2 : String} (v : β) (h : k2 ≠ k) :
    ∀ m : List (String × β), (m ++ [(k, v)]).lookup k2 = m.lookup k2
  | [] => by simp [lookup_cons_mk, if_neg h]
  | (a, b) :: t => by
    rw [List.cons_append, lookup_cons_mk, lookup_cons_mk]
    by_cases hk : k2 = a
    · rw [if_pos hk, if_pos hk]
    · rw [if_neg hk, if_neg hk]
      exact lookup_append_single_ne v h t

theorem lookup_mapSet_self {β : Type} (m : List (String × β)) (k : String) (v : β) :
    (mapSet m k v).lookup k = some v := by
  simp only [mapSet]
  by_cases h : (m.lookup k).isSome
  · rw [if_pos h]
    exact lookup_mapReplace_self k v m h
  · rw [if_neg h]
    apply lookup_append_single_of_none
    cases hs : m.lookup k with
    | none => rfl
    | some x => rw [hs] at h; simp at h

theorem lookup_mapSet_ne {β : Type} (m : List (String × β)) {k k2 : String} (v : β)
    (h : k2 ≠ k) : (mapSet m k v).lookup k2 = m.lookup k2 := by
  simp only [mapSet]
  by_cases hs : (m.lookup k).isSome
  · rw [if_pos hs]
    exact lookup_mapReplace_ne v h m
  · rw [if_neg hs]
    exact lookup_append_single_ne v h m

/-! ### Builder: hash-level correspondence -/

theorem mkParent_hash (a b : Node) : (mkParent a b).hash = combineH a.hash b.hash := rfl

theorem collapse_map_hash :
    ∀ l : List Node, (collapse l).map Node.hash = collapseH (l.map Node.hash)
  | [] => rfl
  | [a] => rfl
  | a :: b :: rest => by
    simp only [collapse, collapseH, List.map_cons, mkParent_hash, List.cons.injEq, true_and]
    exact collapse_map_hash rest

theorem buildRoot_hash : ∀ l : List Node, (buildRoot l).hash = buildRootH (l.map Node.hash)
  | [] => by simp [buildRoot, buildRootH, Node.hash]
  | [n] => by simp [buildRoot, buildRootH]
  | a :: b :: rest => by
    have h1 : buildRoot (a :: b :: rest) = buildRoot (collapse (a :: b :: rest)) := by
      simp only [buildRoot]
    have h2 : buildRootH (a.hash :: b.hash :: rest.map Node.hash) =
        buildRootH (collapseH (a.hash :: b.hash :: rest.map Node.hash)) := by
      simp only [buildRootH]
    rw [h1, List.map_cons, List.map_cons, h2, ← List.map_cons, ← List.map_cons,
      ← collapse_map_hash]
    exact buildRoot_hash (collapse (a :: b :: rest))
termination_by l => l.length
decreasing_by simp only [collapse_length, List.length_cons]; omega

/-! ### Builder: leaf occurrences and sizes -/

theorem leafOccs_mkParent (a b : Node) :
    leafOccs (mkParent a b) = leafOccs a ++ leafOccs b := by
  simp [mkParent, leafOccs]

theorem mem_occs_collapse :
    ∀ (l : List Node) (x : Node),
      x ∈ ((collapse l).map leafOccs).flatten ↔ x ∈ (l.map leafOccs).flatten
  | [], x => Iff.rfl
  | [a], x => by
    simp [collapse, leafOccs_mkParent]
  | a :: b :: rest, x => by
    simp only [collapse, List.map_cons, List.flatten_cons, leafOccs_mkParent,
      List.mem_append, or_assoc]
    have := mem_occs_collapse rest x
    tauto

theorem mem_leafOccs_buildRoot :
    ∀ l : List Node, l ≠ [] → ∀ x : Node,
      (x ∈ leafOccs (buildRoot l) ↔ x ∈ (l.map leafOccs).flatten)
  | [], h, _ => absurd rfl h
  | [n], _, x => by simp [buildRoot]
  | a :: b :: rest, _, x => by
    have h1 : buildRoot (a :: b :: rest) = buildRoot (collapse (a :: b :: rest)) := by
      simp only [buildRoot]
    have hne : collapse (a :: b :: rest) ≠ [] := by
      intro hc
      have hl := collapse_length (a :: b :: rest)
      rw [hc] at hl
      simp only [List.length_nil, List.length_cons] at hl
      omega
    rw [h1, mem_leafOccs_buildRoot (collapse (a :: b :: rest)) hne x]
    exact mem_occs_collapse (a :: b :: rest) x
termination_by l => l.length
decreasing_by simp only [collapse_length, List.length_cons]; omega

theorem wsum_mkParent (a b : Node) : wsum (mkParent a b) = wsum a + wsum b := by
  simp [wsum, leafOccs_mkParent]

theorem Ssum_collapse_ge :
    ∀ l : List Node, (∀ n ∈ l, 0 < wsum n) → Ssum l ≤ Ssum (collapse l)
  | [], _ => le_refl _
  | [a], h => by
    have := h a (by simp)
    simp only [Ssum, collapse, List.map_cons, List.map_nil, List.sum_cons, List.sum_nil,
      wsum_mkParent]
    omega
  | a :: b :: rest, h => by
    have hr := Ssum_collapse_ge rest (fun n hn => h n (by simp [hn]))
    simp only [Ssum, collapse, List.map_cons, List.sum_cons, wsum_mkParent] at hr ⊢
    omega

theorem Ssum_collapse_gt :
    ∀ l : List Node, l.length % 2 = 1 → (∀ n ∈ l, 0 < wsum n) → Ssum l < Ssum (collapse l)
  | [], hlen, _ => by simp at hlen
  | [a], _, h => by
    have := h a (by simp)
    simp only [Ssum, collapse, List.map_cons, List.map_nil, List.sum_cons, List.sum_nil,
      wsum_mkParent]
    omega
  | a :: b :: rest, hlen, h => by
    have hrl : rest.length % 2 = 1 := by
      simp only [List.length_cons] at hlen
      omega
    have hr := Ssum_collapse_gt rest hrl (fun n hn => h n (by simp [hn]))
    simp only [Ssum, collapse, List.map_cons, List.sum_cons, wsum_mkParent] at hr ⊢
    omega

theorem collapse_pos :
    ∀ l : List Node, (∀ n ∈ l, 0 < wsum n) → ∀ m ∈ collapse l, 0 < wsum m
  | [], _, m, hm => absurd hm (List.not_mem_nil _)
  | [a], h, m, hm => by
    simp only [collapse, List.mem_singleton] at hm
    subst hm
    have := h a (by simp)
    rw [wsum_mkParent]
    omega
  | a :: b :: rest, h, m, hm => by
    simp only [collapse, List.mem_cons] at hm
    rcases hm with rfl | hm
    · have ha := h a (by simp)
      have hb := h b (by simp)
      rw [wsum_mkParent]
      omega
    · exact collapse_pos rest (fun n hn => h n (by simp [hn])) m hm

theorem wsum_buildRoot_ge :
    ∀ l : List Node, l ≠ [] → (∀ n ∈ l, 0 < wsum n) → Ssum l ≤ wsum (buildRoot l)
  | [], h, _ => absurd rfl h
  | [n], _, _ => by simp [buildRoot, Ssum]
  | a :: b :: rest, _, h => by
    have h1 : buildRoot (a :: b :: rest) = buildRoot (collapse (a :: b :: rest)) := by
      simp only [buildRoot]
    have hne : collapse (a :: b :: rest) ≠ [] := by
      intro hc
      have hl := collapse_length (a :: b :: rest)
      rw [hc] at hl
      simp only [List.length_nil, List.length_cons] at hl
      omega
    rw [h1]
    calc Ssum (a :: b :: rest) ≤ Ssum (collapse (a :: b :: rest)) := Ssum_collapse_ge _ h
      _ ≤ wsum (buildRoot (collapse (a :: b :: rest))) :=
        wsum_buildRoot_ge _ hne (collapse_pos _ h)
termination_by l => l.length
decreasing_by simp only [collapse_length, List.length_cons]; omega

theorem hasOddLevel_step (n : Nat) :
    hasOddLevel n =
      if n ≤ 1 then false else if n % 2 = 1 then true else hasOddLevel ((n + 1) / 2) := by
  rw [hasOddLevel]

theorem wsum_buildRoot_gt :
    ∀ l : List Node, 2 ≤ l.length → (∀ n ∈ l, 0 < wsum n) →
      hasOddLevel l.length = true → Ssum l < wsum (buildRoot l)
  | [], hlen, _, _ => by simp at hlen
  | [n], hlen, _, _ => by simp at hlen
  | a :: b :: rest, hlen, h, hodd => by
    have h1 : buildRoot (a :: b :: rest) = buildRoot (collapse (a :: b :: rest)) := by
      simp only [buildRoot]
    have hne : collapse (a :: b :: rest) ≠ [] := by
      intro hc
      have hl := collapse_length (a :: b :: rest)
      rw [hc] at hl
      simp only [List.length_nil, List.length_cons] at hl
      omega
    rw [h1]
    by_cases hp : (a :: b :: rest).length % 2 = 1
    · calc Ssum (a :: b :: rest) < Ssum (collapse (a :: b :: rest)) :=
          Ssum_collapse_gt _ hp h
        _ ≤ wsum (buildRoot (collapse (a :: b :: rest))) :=
          wsum_buildRoot_ge _ hne (collapse_pos _ h)
    · rw [hasOddLevel_step, if_neg (by omega : ¬(a :: b :: rest).length ≤ 1),
        if_neg hp] at hodd
      have hlen2 : 2 ≤ (collapse (a :: b :: rest)).length := by
        rw [collapse_length]
        by_contra hc
        rw [hasOddLevel_step, if_pos (by omega : ((a :: b :: rest).length + 1) / 2 ≤ 1)]
          at hodd
        exact Bool.false_ne_true hodd
      calc Ssum (a :: b :: rest) ≤ Ssum (collapse (a :: b :: rest)) := Ssum_collapse_ge _ h
        _ < wsum (buildRoot (collapse (a :: b :: rest))) :=
          wsum_buildRoot_gt _ hlen2 (collapse_pos _ h)
            (by rw [collapse_length]; exact hodd)
termination_by l => l.length
decreasing_by simp only [collapse_length, List.length_cons]; omega

/-! ### Codec: the load walk as a fold over leaf occurrences -/

theorem collectNode_eq_fold (root : String) :
    ∀ (n : Node) (acc : Int × List (String × FileData)),
      collectNode root n acc = (leafOccs n).foldl (collectStep root) acc
  | .mk h l r p s m, acc => by
    rw [collectNode.eq_def, leafOccs.eq_def]
    dsimp only
    rw [List.foldl_append, List.foldl_append]
    have hstep :
        (if p ≠ "" then [Node.mk h l r p s m] else []).foldl (collectStep root) acc =
          (if p ≠ "" then
            (acc.1 + s, if m ≠ 0 then mapSet acc.2 (goJoin root p) ⟨h, s, m⟩ else acc.2)
          else acc) := by
      by_cases hp : p ≠ ""
      · rw [if_pos hp, if_pos hp]
        rfl
      · rw [if_neg hp, if_neg hp]
        rfl
    rw [hstep]
    cases l with
    | none =>
      cases r with
      | none => rfl
      | some nr =>
        dsimp only
        exact collectNode_eq_fold root nr _
    | some nl =>
      cases r with
      | none =>
        dsimp only
        exact collectNode_eq_fold root nl _
      | some nr =>
        dsimp only
        rw [collectNode_eq_fold root nl _, collectNode_eq_fold root nr _]

theorem foldl_collectStep_fst (root : String) :
    ∀ (occs : List Node) (acc : Int × List (String × FileData)),
      (occs.foldl (collectStep root) acc).1 = acc.1 + (occs.map Node.size).sum
  | [], acc => by simp
  | n :: t, acc => by
    rw [List.foldl_cons, foldl_collectStep_fst root t]
    simp only [List.map_cons, List.sum_cons]
    have hfst : (collectStep root acc n).1 = acc.1 + n.size := rfl
    omega

theorem Load_totalSize (s : SerializedTree) : (Load s).TotalSize = wsum s.Tree := by
  show (collectNode s.Root s.Tree (0, [])).1 = _
  rw [collectNode_eq_fold, foldl_collectStep_fst]
  simp [wsum]

theorem foldl_collectStep_lookup (root : String) (v : FileData) (q : String) :
    ∀ (occs : List Node) (acc : Int × List (String × FileData)),
      (∀ n ∈ occs, n.mtime ≠ 0 → goJoin root n.path = q →
        FileData.mk n.hash n.size n.mtime = v) →
      (occs.foldl (collectStep root) acc).2.lookup q =
        (if occs.any (fun n => n.mtime != 0 && (goJoin root n.path == q)) then some v
         else acc.2.lookup q)
  | [], acc, _ => by simp
  | n :: t, acc, hcons => by
    rw [List.foldl_cons,
      foldl_collectStep_lookup root v q t _ (fun x hx => hcons x (by simp [hx]))]
    have hsnd : (collectStep root acc n).2 =
        if n.mtime ≠ 0 then mapSet acc.2 (goJoin root n.path) ⟨n.hash, n.size, n.mtime⟩
        else acc.2 := rfl
    by_cases ht : t.any (fun n => n.mtime != 0 && (goJoin root n.path == q)) = true
    · rw [if_pos ht, if_pos (by simp only [List.any_cons, ht, Bool.or_true])]
    · rw [if_neg ht]
      by_cases hm : n.mtime ≠ 0
      · by_cases hj : goJoin root n.path = q
        · have hc : ((n.mtime != 0) && (goJoin root n.path == q)) = true := by
            simp [bne_iff_ne, hm, hj]
          rw [if_pos (by simp only [List.any_cons, hc, Bool.true_or])]
          rw [hsnd, if_pos hm, hj, hcons n (List.mem_cons_self _ _) hm hj]
          exact lookup_mapSet_self _ _ _
        · have hc : ((n.mtime != 0) && (goJoin root n.path == q)) = false := by
            simp [hj]
          rw [if_neg (by simp [List.any_cons, hc, ht])]
          rw [hsnd, if_pos hm]
          exact lookup_mapSet_ne _ _ (fun hqq => hj hqq.symm)
      · have hc : ((n.mtime != 0) && (goJoin root n.path == q)) = false := by
          simp only [ne_eq, not_not] at hm
          simp [hm]
        rw [if_neg (by simp [List.any_cons, hc, ht])]
        rw [hsnd, if_neg hm]

theorem Load_files_lookup (s : SerializedTree) (v : FileData) (q : String)
    (hcons : ∀ n ∈ leafOccs s.Tree, n.mtime ≠ 0 → goJoin s.Root n.path = q →
      FileData.mk n.hash n.size n.mtime = v) :
    (Load s).Files.lookup q =
      (if (leafOccs s.Tree).any (fun n => n.mtime != 0 && (goJoin s.Root n.path == q))
       then some v else none) := by
  show (collectNode s.Root s.Tree (0, [])).2.lookup q = _
  rw [collectNode_eq_fold, foldl_collectStep_lookup s.Root v q _ _ hcons]
  rfl

/-! ### Builder: projections of `Build` -/

theorem Build_Files :
    ∀ (files : List (String × FileData)) (r : String), files ≠ [] →
      (Build files r).Files = files
  | [], _, h => absurd rfl h
  | _ :: _, _, _ => rfl

theorem Build_Root :
    ∀ (files : List (String × FileData)) (r : String), files ≠ [] →
      (Build files r).Root = buildRoot (buildLeaves files r)
  | [], _, h => absurd rfl h
  | _ :: _, _, _ => rfl

theorem Build_RootPath :
    ∀ (files : List (String × FileData)) (r : String), (Build files r).RootPath = r
  | [], _ => rfl
  | _ :: _, _ => rfl

theorem Build_TotalSize :
    ∀ (files : List (String × FileData)) (r : String), files ≠ [] →
      (Build files r).TotalSize = (files.map (fun e => e.2.Size)).sum
  | [], _, h => absurd rfl h
  | _ :: _, _, _ => rfl

theorem leafFor_path (cr p : String) (d : FileData) :
    (leafFor cr p d).path = relPath cr p := rfl

theorem leafOccs_leafFor (cr p : String) (d : FileData) (h : relPath cr p ≠ "") :
    leafOccs (leafFor cr p d) = [leafFor cr p d] := by
  simp [leafFor, leafOccs, h]

theorem flatten_occs_leaves (cr : String)
    (f : String → FileData) :
    ∀ ps : List String, (∀ p ∈ ps, relPath cr p ≠ "") →
      ((ps.map (fun p => leafFor cr p (f p))).map leafOccs).flatten =
        ps.map (fun p => leafFor cr p (f p))
  | [], _ => rfl
  | p :: t, h => by
    simp only [List.map_cons, List.flatten_cons,
      leafOccs_leafFor cr p (f p) (h p (List.mem_cons_self _ _))]
    rw [flatten_occs_leaves cr f t (fun x hx => h x (List.mem_cons_of_mem _ hx))]
    rfl

/-! ### String order -/

theorem listLe_refl : ∀ a : List Char, listLe a a = true
  | [] => rfl
  | c :: cs => by simp [listLe, listLe_refl cs]

theorem listLe_total : ∀ a b : List Char, listLe a b = true ∨ listLe b a = true
  | [], _ => Or.inl rfl
  | _ :: _, [] => Or.inr rfl
  | c :: cs, d :: ds => by
    by_cases h1 : c.toNat < d.toNat
    · left
      simp [listLe, h1]
    · by_cases h2 : d.toNat < c.toNat
      · right
        simp [listLe, h2]
      · have he : ¬d.toNat < c.toNat := h2
        rcases listLe_total cs ds with h | h
        · left
          simp [listLe, h1, h2, h]
        · right
          simp [listLe, h1, h2, h]

theorem listLe_trans :
    ∀ a b c : List Char, listLe a b = true → listLe b c = true → listLe a c = true
  | [], _, _, _, _ => rfl
  | _ :: _, [], _, h, _ => by simp [listLe] at h
  | _ :: _, _ :: _, [], _, h => by simp [listLe] at h
  | a :: as, b :: bs, c :: cs, h1, h2 => by
    simp only [listLe] at h1 h2 ⊢
    by_cases hab : a.toNat < b.toNat
    · by_cases hbc : b.toNat < c.toNat
      · rw [if_pos (by omega : a.toNat < c.toNat)]
      · by_cases hcb : c.toNat < b.toNat
        · rw [if_neg hbc, if_pos hcb] at h2
          exact absurd h2 (by simp)
        · rw [if_pos (by omega : a.toNat < c.toNat)]
    · by_cases hba : b.toNat < a.toNat
      · rw [if_neg hab, if_pos hba] at h1
        exact absurd h1 (by simp)
      · by_cases hbc : b.toNat < c.toNat
        · rw [if_pos (by omega : a.toNat < c.toNat)]
        · by_cases hcb : c.toNat < b.toNat
          · rw [if_neg hbc, if_pos hcb] at h2
            exact absurd h2 (by simp)
          · rw [if_neg hab, if_neg hba] at h1
            rw [if_neg hbc, if_neg hcb] at h2
            rw [if_neg (by omega : ¬a.toNat < c.toNat),
              if_neg (by omega : ¬c.toNat < a.toNat)]
            exact listLe_trans as bs cs h1 h2

theorem listLe_antisymm :
    ∀ a b : List Char, listLe a b = true → listLe b a = true → a = b
  | [], [], _, _ => rfl
  | [], _ :: _, _, h => by simp [listLe] at h
  | _ :: _, [], h, _ => by simp [listLe] at h
  | a :: as, b :: bs, h1, h2 => by
    simp only [listLe] at h1 h2
    by_cases hab : a.toNat < b.toNat
    · rw [if_neg (by omega : ¬b.toNat < a.toNat), if_pos hab] at h2
      exact absurd h2 (by simp)
    · by_cases hba : b.toNat < a.toNat
      · rw [if_neg hab, if_pos hba] at h1
        exact absurd h1 (by simp)
      · rw [if_neg hab, if_neg hba] at h1
        rw [if_neg hba, if_neg hab] at h2
        have hn : a.toNat = b.toNat := by omega
        have hc : a = b := by rw [← Char.ofNat_toNat a, hn, Char.ofNat_toNat]
        rw [hc, listLe_antisymm as bs h1 h2]

instance : IsTotal String strLe := ⟨fun a b => listLe_total a.data b.data⟩

instance : IsTrans String strLe :=
  ⟨fun a b c h1 h2 => listLe_trans a.data b.data c.data h1 h2⟩

instance : IsAntisymm String strLe :=
  ⟨fun a b h1 h2 => by
    cases a
    cases b
    exact congrArg String.mk (listLe_antisymm _ _ h1 h2)⟩

theorem listLt_imp_le : ∀ a b : List Char, listLt a b = true → listLe a b = true
  | [], _, _ => rfl
  | _ :: _, [], h => by simp [listLt] at h
  | a :: as, b :: bs, h => by
    simp only [listLt] at h
    simp only [listLe]
    by_cases hab : a.toNat < b.toNat
    · rw [if_pos hab]
    · by_cases hba : b.toNat < a.toNat
      · rw [if_neg hab, if_pos hba] at h
        exact absurd h (by simp)
      · rw [if_neg hab, if_neg hba] at h ⊢
        exact listLt_imp_le as bs h

theorem listLt_irrefl : ∀ a : List Char, listLt a a = false
  | [] => rfl
  | c :: cs => by simp [listLt, listLt_irrefl cs]

theorem strLt_le {a b : String} (h : strLt a b) : strLe a b :=
  listLt_imp_le a.data b.data h

theorem strLt_ne {a b : String} (h : strLt a b) : a ≠ b := by
  intro hc
  subst hc
  rw [strLt, listLt_irrefl] at h
  exact Bool.false_ne_true h

/-! ### Claims -/

/-- C7: building an empty files mapping yields a tree whose root is a
single leaf (no children, empty path) whose hash is the fixed sentinel
digest of the constant `"empty-tree"` marker, and every empty build
yields this same root hash, for any root path. -/
theorem C7_empty_build_sentinel (r : String) :
    (Build [] r).Root =
      Node.mk (hexEncode (XXHashFunc (strBytes "empty-tree"))) none none "" 0 0 ∧
    ∀ r2 : String, (Build [] r2).Root.hash = (Build [] r).Root.hash :=
  ⟨rfl, fun _ => rfl⟩

/-- Root shape of a three-entry build with sorted distinct paths: the
odd last leaf is paired with itself. -/
theorem Build_root_three (p1 p2 p3 : String) (d1 d2 d3 : FileData) (r : String)
    (h12 : strLt p1 p2) (h23 : strLt p2 p3) :
    (Build [(p1, d1), (p2, d2), (p3, d3)] r).Root =
      mkParent (mkParent (leafFor (goClean r) p1 d1) (leafFor (goClean r) p2 d2))
        (mkParent (leafFor (goClean r) p3 d3) (leafFor (goClean r) p3 d3)) := by
  have hne12 : p1 ≠ p2 := strLt_ne h12
  have hne23 : p2 ≠ p3 := strLt_ne h23
  have hle13 : strLe p1 p3 := listLe_trans _ _ _ (strLt_le h12) (strLt_le h23)
  have hne13 : p1 ≠ p3 := by
    intro hc
    subst hc
    have hd := listLe_antisymm p1.data p2.data (strLt_le h12) (strLt_le h23)
    apply hne12
    cases p1
    cases p2
    exact congrArg String.mk hd
  have hs3 : List.Sorted strLe [p1, p2, p3] := by
    refine List.sorted_cons.mpr ⟨?_, List.sorted_cons.mpr ⟨?_, List.sorted_singleton _⟩⟩
    · intro b hb
      rcases List.mem_cons.mp hb with rfl | hb2
      · exact strLt_le h12
      · rcases List.mem_cons.mp hb2 with rfl | hb3
        · exact hle13
        · exact absurd hb3 (List.not_mem_nil _)
    · intro b hb
      rcases List.mem_cons.mp hb with rfl | hb2
      · exact strLt_le h23
      · exact absurd hb2 (List.not_mem_nil _)
  have hsorted : sortStrings [p1, p2, p3] = [p1, p2, p3] :=
    List.Sorted.insertionSort_eq hs3
  rw [Build_Root _ _ (by simp)]
  show buildRoot (buildLeaves [(p1, d1), (p2, d2), (p3, d3)] r) = _
  unfold buildLeaves
  have hkeys : ([(p1, d1), (p2, d2), (p3, d3)].map Prod.fst) = [p1, p2, p3] := rfl
  rw [hkeys, hsorted]
  have e1 : [(p1, d1), (p2, d2), (p3, d3)].lookup p1 = some d1 := by
    rw [lookup_cons_mk, if_pos rfl]
  have e2 : [(p1, d1), (p2, d2), (p3, d3)].lookup p2 = some d2 := by
    rw [lookup_cons_mk, if_neg (fun hc => hne12 hc.symm), lookup_cons_mk, if_pos rfl]
  have e3 : [(p1, d1), (p2, d2), (p3, d3)].lookup p3 = some d3 := by
    rw [lookup_cons_mk, if_neg (fun hc => hne13 hc.symm), lookup_cons_mk,
      if_neg (fun hc => hne23 hc.symm), lookup_cons_mk, if_pos rfl]
  simp only [List.map_cons, List.map_nil, e1, e2, e3, Option.getD_some]
  simp [buildRoot, collapse]

/-- C2: for a three-entry files map whose sorted paths carry content
hashes h1, h2 and h3, the builder pairs the odd last leaf with itself:
`parent1.hash = H(h1‖h2)`, `parent2.hash = H(h3‖h3)` and
`root.hash = H(parent1.hash‖parent2.hash)`, where `H` is `XXHashFunc` on
the concatenation of the decoded hash byte strings. -/
theorem C2_three_leaf_odd_duplication (p1 p2 p3 : String) (d1 d2 d3 : FileData)
    (r : String) (h12 : strLt p1 p2) (h23 : strLt p2 p3) :
    ((Build [(p1, d1), (p2, d2), (p3, d3)] r).Root.left.map Node.hash =
      some (hexEncode (XXHashFunc (hexDecodeGo d1.Hash ++ hexDecodeGo d2.Hash)))) ∧
    ((Build [(p1, d1), (p2, d2), (p3, d3)] r).Root.right.map Node.hash =
      some (hexEncode (XXHashFunc (hexDecodeGo d3.Hash ++ hexDecodeGo d3.Hash)))) ∧
    (Build [(p1, d1), (p2, d2), (p3, d3)] r).Root.hash =
      hexEncode (XXHashFunc
        (XXHashFunc (hexDecodeGo d1.Hash ++ hexDecodeGo d2.Hash) ++
         XXHashFunc (hexDecodeGo d3.Hash ++ hexDecodeGo d3.Hash))) := by
  have hroot := Build_root_three p1 p2 p3 d1 d2 d3 r h12 h23
  refine ⟨?_, ?_, ?_⟩
  · rw [hroot]
    rfl
  · rw [hroot]
    rfl
  · rw [hroot]
    show hexEncode (XXHashFunc
      (hexDecodeGo (hexEncode (XXHashFunc (hexDecodeGo d1.Hash ++ hexDecodeGo d2.Hash))) ++
       hexDecodeGo (hexEncode (XXHashFunc (hexDecodeGo d3.Hash ++ hexDecodeGo d3.Hash))))) = _
    rw [hexDecode_hexEncode _ (XXHashFunc_lt _), hexDecode_hexEncode _ (XXHashFunc_lt _)]

/-- Witness for C2: a concrete three-entry map at paths `a < b < c`. -/
theorem C2_three_leaf_odd_duplication_witness :
    strLt "a" "b" ∧ strLt "b" "c" ∧
    (Build [("a", FileData.mk "aa" 1 1), ("b", FileData.mk "bb" 1 1),
        ("c", FileData.mk "cc" 1 1)] "/r").Root.hash =
      hexEncode (XXHashFunc
        (XXHashFunc (hexDecodeGo "aa" ++ hexDecodeGo "bb") ++
         XXHashFunc (hexDecodeGo "cc" ++ hexDecodeGo "cc"))) :=
  ⟨by decide, by decide,
    (C2_three_leaf_odd_duplication "a" "b" "c" ⟨"aa", 1, 1⟩ ⟨"bb", 1, 1⟩ ⟨"cc", 1, 1⟩
      "/r" (by decide) (by decide)).2.2⟩

/-- C8: the digest computed by `HashFile` depends only on the file's
byte content: feeding the content to the streaming accumulator in chunks
of any sizes yields the same digest as writing the whole byte sequence
at once, and the returned digest is that hash encoded as lowercase hex. -/
theorem C8_hashfile_chunk_invariance (chunks : List (List Nat)) :
    hashFileChunks chunks = hexEncode (beBytes8 (xxh64 chunks.flatten)) ∧
    ∀ c ∈ (hashFileChunks chunks).data, isLowerHexChar c = true := by
  constructor
  · unfold hashFileChunks xxh64
    rw [foldl_write]
  · intro c hc
    have hd := @isHexDigest_hexEncode
      (beBytes8 ((chunks.foldl Digest.write Digest.init).sum64)) rfl
    simp only [isHexDigest, Bool.and_eq_true, beq_iff_eq, List.all_eq_true] at hd
    exact hd.2 c hc

theorem mem_of_lookup {β : Type} :
    ∀ {l : List (String × β)} {k : String} {v : β}, l.lookup k = some v → (k, v) ∈ l
  | [], k, v, h => by simp [List.lookup] at h
  | (a, b) :: t, k, v, h => by
    rw [lookup_cons_mk] at h
    by_cases hk : k = a
    · rw [if_pos hk] at h
      subst hk
      rw [Option.some.injEq] at h
      subst h
      exact List.mem_cons_self _ _
    · rw [if_neg hk] at h
      exact List.mem_cons_of_mem _ (mem_of_lookup h)

theorem mem_sortChanges {c : Change} {l : List Change} : c ∈ sortChanges l ↔ c ∈ l :=
  (List.perm_insertionSort _ l).mem_iff

/-- C4: `Compare` classifies every path by value comparison of the two
flat files maps — a path is in the added sequence iff it is a key of the
new map only; in the modified sequence iff it is a key of both maps and
the two content hashes differ (size or modification-time differences
alone never produce an entry); in the deleted sequence iff it is a key of
the old map only; and no other entries occur. -/
theorem C4_compare_classification (oldF newF : List (String × FileData))
    (hndNew : (keys newF).Nodup) (p : String) :
    ((∃ c ∈ (Compare oldF newF).Added, c.path = p) ↔
      (p ∈ keys newF ∧ p ∉ keys oldF)) ∧
    ((∃ c ∈ (Compare oldF newF).Modified, c.path = p) ↔
      (∃ dOld dNew, oldF.lookup p = some dOld ∧ newF.lookup p = some dNew ∧
        dOld.Hash ≠ dNew.Hash)) ∧
    ((∃ c ∈ (Compare oldF newF).Deleted, c.path = p) ↔
      (p ∈ keys oldF ∧ p ∉ keys newF)) := by
  refine ⟨?_, ?_, ?_⟩
  · constructor
    · rintro ⟨c, hc, rfl⟩
      simp only [Compare] at hc
      rw [mem_sortChanges] at hc
      simp only [List.mem_map, List.mem_filter] at hc
      obtain ⟨e, ⟨heN, hnone⟩, rfl⟩ := hc
      refine ⟨List.mem_map_of_mem Prod.fst heN, ?_⟩
      rw [← lookup_eq_none_iff]
      exact Option.isNone_iff_eq_none.mp hnone
    · rintro ⟨hpN, hpO⟩
      obtain ⟨e, he, rfl⟩ := List.mem_map.mp hpN
      refine ⟨Change.mk "ADDED" e.1 none (some e.2), ?_, rfl⟩
      simp only [Compare]
      rw [mem_sortChanges]
      simp only [List.mem_map, List.mem_filter]
      refine ⟨e, ⟨he, ?_⟩, rfl⟩
      rw [Option.isNone_iff_eq_none, lookup_eq_none_iff]
      exact hpO
  · constructor
    · rintro ⟨c, hc, rfl⟩
      simp only [Compare] at hc
      rw [mem_sortChanges] at hc
      simp only [List.mem_filterMap] at hc
      obtain ⟨e, heN, hf⟩ := hc
      cases hlook : oldF.lookup e.1 with
      | none => rw [hlook] at hf; simp at hf
      | some o =>
        rw [hlook] at hf
        dsimp only at hf
        by_cases hh : o.Hash ≠ e.2.Hash
        · rw [if_pos hh, Option.some.injEq] at hf
          subst hf
          exact ⟨o, e.2, hlook, lookup_of_mem_nodup hndNew heN, hh⟩
        · rw [if_neg hh] at hf
          simp at hf
    · rintro ⟨dOld, dNew, hO, hN, hh⟩
      refine ⟨Change.mk "MODIFIED" p (some dOld) (some dNew), ?_, rfl⟩
      simp only [Compare]
      rw [mem_sortChanges]
      simp only [List.mem_filterMap]
      refine ⟨(p, dNew), mem_of_lookup hN, ?_⟩
      rw [hO]
      dsimp only
      rw [if_pos hh]
  · constructor
    · rintro ⟨c, hc, rfl⟩
      simp only [Compare] at hc
      rw [mem_sortChanges] at hc
      simp only [List.mem_map, List.mem_filter] at hc
      obtain ⟨e, ⟨heO, hnone⟩, rfl⟩ := hc
      refine ⟨List.mem_map_of_mem Prod.fst heO, ?_⟩
      rw [← lookup_eq_none_iff]
      exact Option.isNone_iff_eq_none.mp hnone
    · rintro ⟨hpO, hpN⟩
      obtain ⟨e, he, rfl⟩ := List.mem_map.mp hpO
      refine ⟨Change.mk "DELETED" e.1 (some e.2) none, ?_, rfl⟩
      simp only [Compare]
      rw [mem_sortChanges]
      simp only [List.mem_map, List.mem_filter]
      refine ⟨e, ⟨he, ?_⟩, rfl⟩
      rw [Option.isNone_iff_eq_none, lookup_eq_none_iff]
      exact hpN

/-- Witness for C4: the spec's comparator scenario — old map `a, b`, new
map `a, b (new hash), c` — checked at the added path `c`. -/
theorem C4_compare_classification_witness :
    (keys [("a", FileData.mk "x" 1 1), ("b", FileData.mk "z" 1 1),
      ("c", FileData.mk "w" 1 1)]).Nodup ∧
    ((∃ c ∈ (Compare
        [("a", FileData.mk "x" 1 1), ("b", FileData.mk "y" 1 1)]
        [("a", FileData.mk "x" 1 1), ("b", FileData.mk "z" 1 1),
          ("c", FileData.mk "w" 1 1)]).Added, c.path = "c") ↔
      ("c" ∈ keys [("a", FileData.mk "x" 1 1), ("b", FileData.mk "z" 1 1),
        ("c", FileData.mk "w" 1 1)] ∧
       "c" ∉ keys [("a", FileData.mk "x" 1 1), ("b", FileData.mk "y" 1 1)])) :=
  ⟨by decide,
    (C4_compare_classification
      [("a", FileData.mk "x" 1 1), ("b", FileData.mk "y" 1 1)]
      [("a", FileData.mk "x" 1 1), ("b", FileData.mk "z" 1 1),
        ("c", FileData.mk "w" 1 1)]
      (by decide) "c").1⟩

theorem buildLeaves_map_hash (files : List (String × FileData)) (r : String) :
    (buildLeaves files r).map Node.hash =
      (sortStrings (files.map Prod.fst)).map
        (fun p => ((files.lookup p).getD ⟨"", 0, 0⟩).Hash) := by
  unfold buildLeaves
  rw [List.map_map]
  rfl

/-- C3: `Build` is deterministic and order-independent — the root hash is
a function only of the (path, content-hash) pairs of the files map: any
two inputs carrying the same set of (path, hash) pairs (in any order,
with any sizes and modification times) produce the same `root.hash`. -/
theorem C3_build_order_independent (files1 files2 : List (String × FileData)) (r : String)
    (hnd1 : (keys files1).Nodup)
    (hperm : (files1.map (fun e => (e.1, e.2.Hash))).Perm
      (files2.map (fun e => (e.1, e.2.Hash)))) :
    (Build files1 r).Root.hash = (Build files2 r).Root.hash := by
  have hcomp1 : (files1.map (fun e => (e.1, e.2.Hash))).map Prod.fst = keys files1 := by
    rw [List.map_map]
    rfl
  have hcomp2 : (files2.map (fun e => (e.1, e.2.Hash))).map Prod.fst = keys files2 := by
    rw [List.map_map]
    rfl
  by_cases hne : files1 = []
  · subst hne
    have h2 : files2 = [] := by
      have hp2 := hperm.symm
      simp only [List.map_nil] at hp2
      have := hp2.eq_nil
      cases files2 with
      | nil => rfl
      | cons e t => simp at this
    rw [h2]
  · have hne2 : files2 ≠ [] := by
      intro hc
      subst hc
      simp only [List.map_nil] at hperm
      have := hperm.eq_nil
      cases hfe : files1 with
      | nil => exact hne hfe
      | cons e t =>
        rw [hfe] at this
        simp at this
    have hkp : (keys files1).Perm (keys files2) := by
      rw [← hcomp1, ← hcomp2]
      exact hperm.map Prod.fst
    have hnd2 : (keys files2).Nodup := hkp.nodup_iff.mp hnd1
    have hsort : sortStrings (keys files1) = sortStrings (keys files2) := by
      apply List.eq_of_perm_of_sorted
        ((List.perm_insertionSort strLe _).trans
          (hkp.trans (List.perm_insertionSort strLe _).symm))
        (List.sorted_insertionSort strLe _) (List.sorted_insertionSort strLe _)
    have hndproj : (keys (files1.map (fun e => (e.1, e.2.Hash)))).Nodup := by
      show ((files1.map (fun e => (e.1, e.2.Hash))).map Prod.fst).Nodup
      rw [hcomp1]
      exact hnd1
    have hlook : ∀ p, ((files1.lookup p).getD ⟨"", 0, 0⟩).Hash =
        ((files2.lookup p).getD ⟨"", 0, 0⟩).Hash := by
      intro p
      have h1 := lookup_map_value (fun d => d.Hash) files1 p
      have h2 := lookup_map_value (fun d => d.Hash) files2 p
      have hpl := lookup_perm hperm hndproj p
      rw [h1, h2] at hpl
      cases ha : files1.lookup p <;> cases hb : files2.lookup p <;>
        rw [ha, hb] at hpl <;> simp_all
    rw [Build_Root files1 r hne, Build_Root files2 r hne2, buildRoot_hash, buildRoot_hash,
      buildLeaves_map_hash, buildLeaves_map_hash]
    rw [show (files1.map Prod.fst) = keys files1 from rfl,
      show (files2.map Prod.fst) = keys files2 from rfl, hsort]
    congr 1
    exact List.map_congr_left (fun p _ => hlook p)

/-- Witness for C3: the same two (path, hash) pairs supplied in opposite
orders with different sizes and modification times. -/
theorem C3_build_order_independent_witness :
    (keys [("a", FileData.mk "h1" 1 1), ("b", FileData.mk "h2" 2 2)]).Nodup ∧
    ([("a", FileData.mk "h1" 1 1), ("b", FileData.mk "h2" 2 2)].map
      (fun e => (e.1, e.2.Hash))).Perm
      ([("b", FileData.mk "h2" 5 5), ("a", FileData.mk "h1" 9 9)].map
        (fun e => (e.1, e.2.Hash))) ∧
    (Build [("a", FileData.mk "h1" 1 1), ("b", FileData.mk "h2" 2 2)] "/r").Root.hash =
      (Build [("b", FileData.mk "h2" 5 5), ("a", FileData.mk "h1" 9 9)] "/r").Root.hash :=
  ⟨by decide, by decide,
    C3_build_order_independent
      [("a", FileData.mk "h1" 1 1), ("b", FileData.mk "h2" 2 2)]
      [("b", FileData.mk "h2" 5 5), ("a", FileData.mk "h1" 9 9)] "/r"
      (by decide) (by decide)⟩

theorem HashFiles_hashes_formula (fs : String → Option (List Nat)) (p : String) :
    ∀ (order : List FileInfo) (acc : HashResult),
      ((order.map (fun fi => (fi.Path, HashFileModel fs fi.Path))).foldl
        collectHash acc).Hashes.lookup p =
        if order.any (fun fi => fi.Path == p) then
          (match HashFileModel fs p with
           | .ok h => some h
           | .error _ => acc.Hashes.lookup p)
        else acc.Hashes.lookup p
  | [], acc => by simp
  | fi :: rest, acc => by
    rw [List.map_cons, List.foldl_cons, HashFiles_hashes_formula fs p rest _]
    by_cases hfp : fi.Path = p
    · subst hfp
      have hany : ((fi :: rest).any (fun x => x.Path == fi.Path)) = true := by
        simp [List.any_cons]
      rw [hany, if_pos rfl]
      cases hm : HashFileModel fs fi.Path with
      | ok h =>
        dsimp only [collectHash]
        by_cases hr : rest.any (fun x => x.Path == fi.Path) = true
        · rw [if_pos hr]
        · rw [if_neg hr]
          exact lookup_mapSet_self _ _ _
      | error e =>
        dsimp only [collectHash]
        by_cases hr : rest.any (fun x => x.Path == fi.Path) = true
        · rw [if_pos hr]
        · rw [if_neg hr]
    · have hlp : (collectHash acc (fi.Path, HashFileModel fs fi.Path)).Hashes.lookup p =
          acc.Hashes.lookup p := by
        cases hm : HashFileModel fs fi.Path with
        | ok h => exact lookup_mapSet_ne _ _ (fun hc => hfp hc.symm)
        | error e => rfl
      rw [hlp]
      have hiff : ((fi :: rest).any (fun x => x.Path == p)) =
          (rest.any (fun x => x.Path == p)) := by
        simp [List.any_cons, hfp]
      rw [hiff]

theorem HashFiles_errors_formula (fs : String → Option (List Nat)) (p : String) :
    ∀ (order : List FileInfo) (acc : HashResult),
      ((order.map (fun fi => (fi.Path, HashFileModel fs fi.Path))).foldl
        collectHash acc).Errors.countP (fun e => e.1 == p) =
        acc.Errors.countP (fun e => e.1 == p) +
          order.countP (fun fi => fi.Path == p && (fs fi.Path).isNone)
  | [], acc => by simp
  | fi :: rest, acc => by
    rw [List.map_cons, List.foldl_cons, HashFiles_errors_formula fs p rest _]
    cases hm : fs fi.Path with
    | some c =>
      have hch : collectHash acc (fi.Path, HashFileModel fs fi.Path) =
          ⟨mapSet acc.Hashes fi.Path (hexEncode (beBytes8 (xxh64 c))), acc.Errors⟩ := by
        show collectHash acc (fi.Path, HashFileModel fs fi.Path) = _
        unfold HashFileModel
        rw [hm]
        rfl
      rw [hch]
      simp only [List.countP_cons, hm, Option.isNone_some, Bool.and_false, if_neg]
      simp
    | none =>
      have hch : collectHash acc (fi.Path, HashFileModel fs fi.Path) =
          ⟨acc.Hashes, acc.Errors ++ [(fi.Path, "failed to open file")]⟩ := by
        show collectHash acc (fi.Path, HashFileModel fs fi.Path) = _
        unfold HashFileModel
        rw [hm]
        rfl
      rw [hch]
      by_cases hfp : fi.Path = p
      · subst hfp
        rw [List.countP_append]
        have hone : List.countP (fun e => e.1 == fi.Path)
            ([(fi.Path, "failed to open file")] : List (String × String)) = 1 := by simp
        rw [hone, List.countP_cons]
        have hpred : ((fun x => x.Path == fi.Path && (fs x.Path).isNone) fi) = true := by
          simp [hm]
        simp only [hpred, if_pos]
        omega
      · have hbf : (fi.Path == p) = false := beq_false_of_ne hfp
        rw [List.countP_append]
        have hzero1 : List.countP (fun e => e.1 == p)
            ([(fi.Path, "failed to open file")] : List (String × String)) = 0 := by
          simp [hbf]
        rw [hzero1, List.countP_cons]
        simp [hbf]

/-- C5: the hashing pipeline attempts each distinct input path exactly
once and places it in exactly one output — the hash map on success, the
path-tagged error list (exactly one entry) on failure; a failure on one
file never prevents the others; and the successful-hash map is the same
for every completion order of the worker pool, hence for every worker
count. -/
theorem C5_pipeline_exactly_once (fs : String → Option (List Nat))
    (files order1 order2 : List FileInfo)
    (hnd : (files.map FileInfo.Path).Nodup)
    (hp1 : order1.Perm files) (hp2 : order2.Perm files) :
    (∀ fi ∈ files, ∀ content, fs fi.Path = some content →
      (HashFiles fs order1).Hashes.lookup fi.Path =
        some (hexEncode (beBytes8 (xxh64 content))) ∧
      (HashFiles fs order1).Errors.countP (fun e => e.1 == fi.Path) = 0) ∧
    (∀ fi ∈ files, fs fi.Path = none →
      (HashFiles fs order1).Hashes.lookup fi.Path = none ∧
      (HashFiles fs order1).Errors.countP (fun e => e.1 == fi.Path) = 1) ∧
    (∀ p : String, p ∉ files.map FileInfo.Path →
      (HashFiles fs order1).Hashes.lookup p = none ∧
      (HashFiles fs order1).Errors.countP (fun e => e.1 == p) = 0) ∧
    (∀ p : String,
      (HashFiles fs order1).Hashes.lookup p = (HashFiles fs order2).Hashes.lookup p) := by
  have hany : ∀ (ord : List FileInfo) (p : String), ord.Perm files →
      ((ord.any (fun x => x.Path == p)) = true ↔ p ∈ files.map FileInfo.Path) := by
    intro ord p hperm
    rw [List.any_eq_true]
    constructor
    · rintro ⟨x, hx, hbeq⟩
      rw [beq_iff_eq] at hbeq
      subst hbeq
      exact List.mem_map_of_mem FileInfo.Path (hperm.subset hx)
    · intro hmem
      obtain ⟨x, hx, hxp⟩ := List.mem_map.mp hmem
      exact ⟨x, hperm.symm.subset hx, by simp [hxp]⟩
  refine ⟨?_, ?_, ?_, ?_⟩
  · intro fi hfi content hcontent
    constructor
    · show ((order1.map (fun fi => (fi.Path, HashFileModel fs fi.Path))).foldl
        collectHash ⟨[], []⟩).Hashes.lookup fi.Path = _
      rw [HashFiles_hashes_formula]
      rw [if_pos ((hany order1 fi.Path hp1).mpr (List.mem_map_of_mem FileInfo.Path hfi))]
      show (match HashFileModel fs fi.Path with
        | .ok h => some h
        | .error _ => (List.lookup fi.Path [])) = _
      unfold HashFileModel
      rw [hcontent]
    · show ((order1.map (fun fi => (fi.Path, HashFileModel fs fi.Path))).foldl
        collectHash ⟨[], []⟩).Errors.countP (fun e => e.1 == fi.Path) = 0
      rw [HashFiles_errors_formula]
      have hzero : order1.countP (fun x => x.Path == fi.Path && (fs x.Path).isNone) = 0 := by
        rw [List.countP_eq_zero]
        intro x hx
        by_cases hxp : x.Path = fi.Path
        · rw [hxp]
          simp [hcontent]
        · simp [beq_false_of_ne hxp]
      rw [hzero]
      simp
  · intro fi hfi hnone
    constructor
    · show ((order1.map (fun fi => (fi.Path, HashFileModel fs fi.Path))).foldl
        collectHash ⟨[], []⟩).Hashes.lookup fi.Path = _
      rw [HashFiles_hashes_formula]
      rw [if_pos ((hany order1 fi.Path hp1).mpr (List.mem_map_of_mem FileInfo.Path hfi))]
      show (match HashFileModel fs fi.Path with
        | .ok h => some h
        | .error _ => (List.lookup fi.Path [])) = _
      unfold HashFileModel
      rw [hnone]
      rfl
    · show ((order1.map (fun fi => (fi.Path, HashFileModel fs fi.Path))).foldl
        collectHash ⟨[], []⟩).Errors.countP (fun e => e.1 == fi.Path) = 1
      rw [HashFiles_errors_formula]
      have hcong : order1.countP (fun x => x.Path == fi.Path && (fs x.Path).isNone) =
          order1.countP (fun x => x.Path == fi.Path) := by
        apply List.countP_congr
        intro x _
        by_cases hxp : x.Path = fi.Path
        · rw [hxp]
          simp [hnone]
        · simp [beq_false_of_ne hxp]
      rw [hcong]
      have hperm : order1.countP (fun x => x.Path == fi.Path) =
          files.countP (fun x => x.Path == fi.Path) := hp1.countP_eq _
      rw [hperm]
      have hmapcount : files.countP (fun x => x.Path == fi.Path) =
          (files.map FileInfo.Path).countP (fun s => s == fi.Path) := by
        rw [List.countP_map]
        rfl
      rw [hmapcount]
      have : (files.map FileInfo.Path).countP (fun s => s == fi.Path) =
          (files.map FileInfo.Path).count fi.Path := rfl
      rw [this, List.count_eq_one_of_mem hnd (List.mem_map_of_mem FileInfo.Path hfi)]
      simp
  · intro p hp
    constructor
    · show ((order1.map (fun fi => (fi.Path, HashFileModel fs fi.Path))).foldl
        collectHash ⟨[], []⟩).Hashes.lookup p = _
      rw [HashFiles_hashes_formula]
      rw [if_neg (by rw [hany order1 p hp1]; exact hp)]
      rfl
    · show ((order1.map (fun fi => (fi.Path, HashFileModel fs fi.Path))).foldl
        collectHash ⟨[], []⟩).Errors.countP (fun e => e.1 == p) = 0
      rw [HashFiles_errors_formula]
      have hzero : order1.countP (fun x => x.Path == p && (fs x.Path).isNone) = 0 := by
        rw [List.countP_eq_zero]
        intro x hx
        by_cases hxp : x.Path = p
        · exfalso
          exact hp (hxp ▸ List.mem_map_of_mem FileInfo.Path (hp1.subset hx))
        · simp [beq_false_of_ne hxp]
      rw [hzero]
      simp
  · intro p
    show ((order1.map (fun fi => (fi.Path, HashFileModel fs fi.Path))).foldl
        collectHash ⟨[], []⟩).Hashes.lookup p =
      ((order2.map (fun fi => (fi.Path, HashFileModel fs fi.Path))).foldl
        collectHash ⟨[], []⟩).Hashes.lookup p
    rw [HashFiles_hashes_formula, HashFiles_hashes_formula]
    have hc : (order1.any (fun x => x.Path == p)) = (order2.any (fun x => x.Path == p)) := by
      cases h1 : order1.any (fun x => x.Path == p) <;>
        cases h2 : order2.any (fun x => x.Path == p)
      · rfl
      · exfalso
        have := (hany order2 p hp2).mp h2
        rw [← hany order1 p hp1] at this
        rw [h1] at this
        exact Bool.false_ne_true this
      · exfalso
        have := (hany order1 p hp1).mp h1
        rw [← hany order2 p hp2] at this
        rw [h2] at this
        exact Bool.false_ne_true this
      · rfl
    rw [hc]

/-- Witness for C5: two files, one of which cannot be opened, processed
in two different completion orders. -/
theorem C5_pipeline_exactly_once_witness :
    ([FileInfo.mk "/a" 2 1, FileInfo.mk "/b" 1 1].map FileInfo.Path).Nodup ∧
    ([FileInfo.mk "/b" 1 1, FileInfo.mk "/a" 2 1].Perm
      [FileInfo.mk "/a" 2 1, FileInfo.mk "/b" 1 1]) ∧
    (∀ p : String,
      (HashFiles (fun q => if q = "/a" then some [1, 2] else none)
        [FileInfo.mk "/b" 1 1, FileInfo.mk "/a" 2 1]).Hashes.lookup p =
      (HashFiles (fun q => if q = "/a" then some [1, 2] else none)
        [FileInfo.mk "/a" 2 1, FileInfo.mk "/b" 1 1]).Hashes.lookup p) :=
  ⟨by decide, by decide,
    (C5_pipeline_exactly_once (fun q => if q = "/a" then some [1, 2] else none)
      [FileInfo.mk "/a" 2 1, FileInfo.mk "/b" 1 1]
      [FileInfo.mk "/b" 1 1, FileInfo.mk "/a" 2 1]
      [FileInfo.mk "/a" 2 1, FileInfo.mk "/b" 1 1]
      (by decide) (by decide) (by decide)).2.2.2⟩

/-- Counterexample to C6 as stated: changing one file's content-hash
string from `"aa"` to `"aaz"` — a different string — leaves `root.hash`
unchanged, because Go's `hex.DecodeString` returns the decoded prefix on
a malformed input and the builder discards the decode error, so both
hashes decode to the same byte string. -/
theorem C6_counterexample :
    (FileData.mk "aa" 1 1).Hash ≠ (FileData.mk "aaz" 1 1).Hash ∧
    (Build [("/r/a", FileData.mk "aa" 1 1), ("/r/b", FileData.mk "bb" 1 1)] "/r").Root.hash =
      (Build [("/r/a", FileData.mk "aaz" 1 1),
        ("/r/b", FileData.mk "bb" 1 1)] "/r").Root.hash := by
  constructor
  · decide
  · have h2 : ∀ h1s : String,
        (Build [("/r/a", FileData.mk h1s 1 1), ("/r/b", FileData.mk "bb" 1 1)] "/r").Root =
          mkParent (leafFor (goClean "/r") "/r/a" (FileData.mk h1s 1 1))
            (leafFor (goClean "/r") "/r/b" (FileData.mk "bb" 1 1)) := by
      intro h1s
      rw [Build_Root _ _ (by simp)]
      unfold buildLeaves
      have hsorted : sortStrings ["/r/a", "/r/b"] = ["/r/a", "/r/b"] := by
        apply List.Sorted.insertionSort_eq
        refine List.sorted_cons.mpr ⟨?_, List.sorted_singleton _⟩
        intro b hb
        rcases List.mem_cons.mp hb with rfl | hb2
        · decide
        · exact absurd hb2 (List.not_mem_nil _)
      rw [show ([("/r/a", FileData.mk h1s 1 1),
          ("/r/b", FileData.mk "bb" 1 1)].map Prod.fst) = ["/r/a", "/r/b"] from rfl,
        hsorted]
      have e1 : [("/r/a", FileData.mk h1s 1 1),
          ("/r/b", FileData.mk "bb" 1 1)].lookup "/r/a" = some (FileData.mk h1s 1 1) := by
        rw [lookup_cons_mk, if_pos rfl]
      have e2 : [("/r/a", FileData.mk h1s 1 1),
          ("/r/b", FileData.mk "bb" 1 1)].lookup "/r/b" = some (FileData.mk "bb" 1 1) := by
        rw [lookup_cons_mk, if_neg (by decide), lookup_cons_mk, if_pos rfl]
      simp only [List.map_cons, List.map_nil, e1, e2, Option.getD_some]
      simp [buildRoot, collapse]
    rw [h2 "aa", h2 "aaz"]
    show hexEncode (XXHashFunc (hexDecodeGo "aa" ++ hexDecodeGo "bb")) =
      hexEncode (XXHashFunc (hexDecodeGo "aaz" ++ hexDecodeGo "bb"))
    rw [show hexDecodeGo "aa" = hexDecodeGo "aaz" from by decide]

theorem collapseH_digest :
    ∀ l : List String, ∀ s ∈ collapseH l, isHexDigest s = true
  | [], _, hs => absurd hs (List.not_mem_nil _)
  | [a], s, hs => by
    simp only [collapseH, List.mem_singleton] at hs
    subst hs
    exact isHexDigest_combineH _ _
  | a :: b :: r, s, hs => by
    simp only [collapseH, List.mem_cons] at hs
    rcases hs with rfl | hs
    · exact isHexDigest_combineH _ _
    · exact collapseH_digest r s hs

theorem combineH_eq_elim {a b a2 b2 : String}
    (ha : isHexDigest a = true) (hb : isHexDigest b = true)
    (ha2 : isHexDigest a2 = true) (hb2 : isHexDigest b2 = true)
    (h : combineH a b = combineH a2 b2) :
    (a = a2 ∧ b = b2) ∨ ∃ x y : List Nat, x ≠ y ∧ XXHashFunc x = XXHashFunc y := by
  have hX : XXHashFunc (hexDecodeGo a ++ hexDecodeGo b) =
      XXHashFunc (hexDecodeGo a2 ++ hexDecodeGo b2) := by
    have hd := congrArg hexDecodeGo h
    rw [combineH, combineH, hexDecode_hexEncode _ (XXHashFunc_lt _),
      hexDecode_hexEncode _ (XXHashFunc_lt _)] at hd
    exact hd
  by_cases hc : hexDecodeGo a ++ hexDecodeGo b = hexDecodeGo a2 ++ hexDecodeGo b2
  · left
    have hlen : (hexDecodeGo a).length = (hexDecodeGo a2).length := by
      rw [hexDecode_length_of_digest ha, hexDecode_length_of_digest ha2]
    have hinj := List.append_inj hc hlen
    exact ⟨hexDecodeGo_inj ha ha2 hinj.1, hexDecodeGo_inj hb hb2 hinj.2⟩
  · right
    exact ⟨_, _, hc, hX⟩

theorem collapseH_eq_elim :
    ∀ l1 l2 : List String,
      (∀ s ∈ l1, isHexDigest s = true) → (∀ s ∈ l2, isHexDigest s = true) →
      l1.length = l2.length → collapseH l1 = collapseH l2 →
      l1 = l2 ∨ ∃ x y : List Nat, x ≠ y ∧ XXHashFunc x = XXHashFunc y
  | [], [], _, _, _, _ => Or.inl rfl
  | [], [_], _, _, hlen, _ => by simp at hlen
  | [], _ :: _ :: _, _, _, hlen, _ => by
    simp only [List.length_cons, List.length_nil] at hlen
    omega
  | [_], [], _, _, hlen, _ => by simp at hlen
  | _ :: _ :: _, [], _, _, hlen, _ => by
    simp only [List.length_cons, List.length_nil] at hlen
    omega
  | [_], _ :: _ :: _, _, _, hlen, _ => by
    simp only [List.length_cons, List.length_nil] at hlen
    omega
  | _ :: _ :: _, [_], _, _, hlen, _ => by
    simp only [List.length_cons, List.length_nil] at hlen
    omega
  | [a], [a2], h1, h2, _, h => by
    simp only [collapseH, List.cons.injEq, and_true] at h
    rcases combineH_eq_elim (h1 a (by simp)) (h1 a (by simp)) (h2 a2 (by simp))
        (h2 a2 (by simp)) h with ⟨rfl, _⟩ | hcol
    · exact Or.inl rfl
    · exact Or.inr hcol
  | a :: b :: r, a2 :: b2 :: r2, h1, h2, hlen, h => by
    simp only [collapseH, List.cons.injEq] at h
    rcases combineH_eq_elim (h1 a (by simp)) (h1 b (by simp)) (h2 a2 (by simp))
        (h2 b2 (by simp)) h.1 with ⟨rfl, rfl⟩ | hcol
    · rcases collapseH_eq_elim r r2 (fun s hs => h1 s (by simp [hs]))
          (fun s hs => h2 s (by simp [hs]))
          (by simp only [List.length_cons] at hlen; omega) h.2 with rfl | hcol
      · exact Or.inl rfl
      · exact Or.inr hcol
    · exact Or.inr hcol

theorem buildRootH_eq_elim :
    ∀ l1 l2 : List String,
      (∀ s ∈ l1, isHexDigest s = true) → (∀ s ∈ l2, isHexDigest s = true) →
      l1.length = l2.length → l1 ≠ [] →
      buildRootH l1 = buildRootH l2 →
      l1 = l2 ∨ ∃ x y : List Nat, x ≠ y ∧ XXHashFunc x = XXHashFunc y
  | [], _, _, _, _, hne, _ => absurd rfl hne
  | [_], [], _, _, hlen, _, _ => by simp at hlen
  | _ :: _ :: _, [], _, _, hlen, _, _ => by
    simp only [List.length_cons, List.length_nil] at hlen
    omega
  | [_], _ :: _ :: _, _, _, hlen, _, _ => by
    simp only [List.length_cons, List.length_nil] at hlen
    omega
  | _ :: _ :: _, [_], _, _, hlen, _, _ => by
    simp only [List.length_cons, List.length_nil] at hlen
    omega
  | [x], [y], _, _, _, _, h => by
    simp only [buildRootH] at h
    exact Or.inl (by rw [h])
  | a :: b :: r, a2 :: b2 :: r2, h1, h2, hlen, _, h => by
    have e1 : buildRootH (a :: b :: r) = buildRootH (collapseH (a :: b :: r)) := by
      simp only [buildRootH]
    have e2 : buildRootH (a2 :: b2 :: r2) = buildRootH (collapseH (a2 :: b2 :: r2)) := by
      simp only [buildRootH]
    rw [e1, e2] at h
    have hne1 : collapseH (a :: b :: r) ≠ [] := by
      intro hc
      have hl := collapseH_length (a :: b :: r)
      rw [hc] at hl
      simp only [List.length_nil, List.length_cons] at hl
      omega
    rcases buildRootH_eq_elim (collapseH (a :: b :: r)) (collapseH (a2 :: b2 :: r2))
        (collapseH_digest _) (collapseH_digest _)
        (by rw [collapseH_length, collapseH_length, hlen]) hne1 h with heq | hcol
    · rcases collapseH_eq_elim _ _ h1 h2 hlen heq with heq2 | hcol
      · exact Or.inl heq2
      · exact Or.inr hcol
    · exact Or.inr hcol
termination_by l1 => l1.length
decreasing_by simp only [collapseH_length, List.length_cons]; omega

theorem map_eq_map_elim {α β : Type} {f g : α → β} :
    ∀ {l : List α}, l.map f = l.map g → ∀ x ∈ l, f x = g x
  | [], _, x, hx => absurd hx (List.not_mem_nil _)
  | a :: t, h, x, hx => by
    simp only [List.map_cons, List.cons.injEq] at h
    rcases List.mem_cons.mp hx with rfl | hx2
    · exact h.1
    · exact map_eq_map_elim h.2 x hx2

/-- C6 amended: for files maps whose content hashes are 16-character
lowercase hex digests (the shape the hasher produces), changing the
content hash of a single file while keeping all paths and all other
entries fixed either changes `root.hash`, or exhibits a collision of the
64-bit digest `XXHashFunc` on two distinct inputs.  (As stated the claim
is false — see the counterexample — because distinct hash strings can
decode to the same bytes; and equality of root hashes for distinct
digests is exactly an `XXHashFunc` collision.) -/
theorem C6_hash_change_amended
    (pre post : List (String × FileData)) (p : String) (d1 d2 : FileData) (r : String)
    (hnd : (keys (pre ++ (p, d1) :: post)).Nodup)
    (hhex : ∀ e ∈ pre ++ (p, d1) :: post, isHexDigest e.2.Hash = true)
    (hhex2 : isHexDigest d2.Hash = true)
    (hne : d1.Hash ≠ d2.Hash) :
    (Build (pre ++ (p, d1) :: post) r).Root.hash ≠
      (Build (pre ++ (p, d2) :: post) r).Root.hash ∨
    ∃ x y : List Nat, x ≠ y ∧ XXHashFunc x = XXHashFunc y := by
  by_cases hroot : (Build (pre ++ (p, d1) :: post) r).Root.hash =
      (Build (pre ++ (p, d2) :: post) r).Root.hash
  · right
    have hkeys : keys (pre ++ (p, d1) :: post) = keys (pre ++ (p, d2) :: post) := by
      simp [keys]
    have hnd2 : (keys (pre ++ (p, d2) :: post)).Nodup := hkeys ▸ hnd
    have hne1 : pre ++ (p, d1) :: post ≠ [] := by simp
    have hne2 : pre ++ (p, d2) :: post ≠ [] := by simp
    rw [Build_Root _ _ hne1, Build_Root _ _ hne2, buildRoot_hash, buildRoot_hash,
      buildLeaves_map_hash, buildLeaves_map_hash] at hroot
    rw [show ((pre ++ (p, d1) :: post).map Prod.fst) = keys (pre ++ (p, d1) :: post)
      from rfl, show ((pre ++ (p, d2) :: post).map Prod.fst) =
        keys (pre ++ (p, d2) :: post) from rfl, ← hkeys] at hroot
    have hdig : ∀ (files : List (String × FileData)),
        (keys files).Nodup → (∀ e ∈ files, isHexDigest e.2.Hash = true) →
        ∀ s ∈ (sortStrings (keys files)).map
          (fun q => ((files.lookup q).getD ⟨"", 0, 0⟩).Hash), isHexDigest s = true := by
      intro files hfnd hfhex s hs
      obtain ⟨q, hq, rfl⟩ := List.mem_map.mp hs
      have hqk : q ∈ keys files := (List.perm_insertionSort strLe _).subset hq
      obtain ⟨e, he, rfl⟩ := List.mem_map.mp hqk
      rw [lookup_of_mem_nodup hfnd he]
      exact hfhex e he
    have hhexB : ∀ e ∈ pre ++ (p, d2) :: post, isHexDigest e.2.Hash = true := by
      intro e he
      rcases List.mem_append.mp he with hp | hp
      · exact hhex e (List.mem_append.mpr (Or.inl hp))
      · rcases List.mem_cons.mp hp with rfl | hp2
        · exact hhex2
        · exact hhex e (List.mem_append.mpr (Or.inr (List.mem_cons_of_mem _ hp2)))
    have hL1 := hdig (pre ++ (p, d1) :: post) hnd hhex
    have hL2 := hdig (pre ++ (p, d2) :: post) hnd2 hhexB
    rw [← hkeys] at hL2
    have hlen : ((sortStrings (keys (pre ++ (p, d1) :: post))).map
        (fun q => (((pre ++ (p, d1) :: post).lookup q).getD ⟨"", 0, 0⟩).Hash)).length =
        ((sortStrings (keys (pre ++ (p, d1) :: post))).map
        (fun q => (((pre ++ (p, d2) :: post).lookup q).getD ⟨"", 0, 0⟩).Hash)).length := by
      rw [List.length_map, List.length_map]
    have hnemp : (sortStrings (keys (pre ++ (p, d1) :: post))).map
        (fun q => (((pre ++ (p, d1) :: post).lookup q).getD ⟨"", 0, 0⟩).Hash) ≠ [] := by
      intro hc
      rw [List.map_eq_nil_iff] at hc
      have hp2 : (keys (pre ++ (p, d1) :: post)).Perm
          (sortStrings (keys (pre ++ (p, d1) :: post))) :=
        (List.perm_insertionSort strLe _).symm
      rw [hc] at hp2
      have h0 := hp2.eq_nil
      simp [keys] at h0
    rcases buildRootH_eq_elim _ _ hL1 hL2 hlen hnemp hroot with heq | hcol
    · exfalso
      have hpmem : p ∈ sortStrings (keys (pre ++ (p, d1) :: post)) := by
        have hin : p ∈ keys (pre ++ (p, d1) :: post) := by simp [keys]
        exact (List.perm_insertionSort strLe _).symm.subset hin
      have hfx := map_eq_map_elim heq p hpmem
      rw [lookup_of_mem_nodup hnd (show (p, d1) ∈ pre ++ (p, d1) :: post by simp),
        lookup_of_mem_nodup hnd2 (show (p, d2) ∈ pre ++ (p, d2) :: post by simp)] at hfx
      exact hne hfx
    · exact hcol
  · left
    exact hroot

/-- Witness for C6 amended: two single-change maps with 16-character
lowercase hex digests. -/
theorem C6_hash_change_amended_witness :
    (keys ([] ++ ("a", FileData.mk "00112233445566aa" 1 1) ::
      [("b", FileData.mk "8899aabbccddeeff" 1 1)])).Nodup ∧
    ((Build ([] ++ ("a", FileData.mk "00112233445566aa" 1 1) ::
        [("b", FileData.mk "8899aabbccddeeff" 1 1)]) "/r").Root.hash ≠
      (Build ([] ++ ("a", FileData.mk "00112233445566bb" 1 1) ::
        [("b", FileData.mk "8899aabbccddeeff" 1 1)]) "/r").Root.hash ∨
    ∃ x y : List Nat, x ≠ y ∧ XXHashFunc x = XXHashFunc y) :=
  ⟨by decide,
    C6_hash_change_amended [] [("b", FileData.mk "8899aabbccddeeff" 1 1)] "a"
      (FileData.mk "00112233445566aa" 1 1) (FileData.mk "00112233445566bb" 1 1) "/r"
      (by decide) (by decide) (by decide) (by decide)⟩

/-- Counterexample to C9 as stated: a stored tree with two leaves
sharing the joined path `/r/a`, one with mtime 0 and one with mtime 5 —
`Load` succeeds and the returned files map does have an entry for that
leaf's path (inserted by the non-zero-mtime occurrence). -/
theorem C9_counterexample :
    Node.mk "aa" none none "a" 1 0 ∈ leafOccs (SerializedTree.mk "merkle-go" 0 "/r"
      (Node.mk "root" (some (Node.mk "aa" none none "a" 1 0))
        (some (Node.mk "bb" none none "a" 1 5)) "" 0 0)).Tree ∧
    (Node.mk "aa" none none "a" 1 0).mtime = 0 ∧
    (Node.mk "aa" none none "a" 1 0).path ≠ "" ∧
    (Load (SerializedTree.mk "merkle-go" 0 "/r"
      (Node.mk "root" (some (Node.mk "aa" none none "a" 1 0))
        (some (Node.mk "bb" none none "a" 1 5)) "" 0 0))).Files.lookup
      (goJoin "/r" (Node.mk "aa" none none "a" 1 0).path) ≠ none := by
  refine ⟨by decide, by decide, by decide, by decide⟩

/-- C9 amended: `Load` inserts a files entry only for leaves with
non-zero mtime, so a leaf occurrence with mtime 0 contributes no entry —
if no other leaf with non-zero mtime shares its joined path, the
returned files map has no entry for that path at all — while the
returned `TotalSize` still sums the size field over every walk-visited
leaf occurrence, including the mtime-0 one. -/
theorem C9_mtime_zero_dropped (s : SerializedTree) (ln : Node)
    (hmem : ln ∈ leafOccs s.Tree) (hmt : ln.mtime = 0)
    (hother : ∀ n ∈ leafOccs s.Tree, n.mtime ≠ 0 →
      goJoin s.Root n.path ≠ goJoin s.Root ln.path) :
    (Load s).Files.lookup (goJoin s.Root ln.path) = none ∧
    (Load s).TotalSize = ((leafOccs s.Tree).map Node.size).sum := by
  constructor
  · rw [Load_files_lookup s ⟨"", 0, 0⟩ (goJoin s.Root ln.path)
      (fun n hn hmt2 hj => absurd hj (hother n hn hmt2))]
    rw [if_neg ?_]
    intro hany
    obtain ⟨n, hn, hpred⟩ := List.any_eq_true.mp hany
    rw [Bool.and_eq_true, bne_iff_ne, beq_iff_eq] at hpred
    exact hother n hn hpred.1 hpred.2
  · rw [Load_totalSize]
    rfl

/-- Witness for C9: a stored tree whose only leaf has mtime 0. -/
theorem C9_mtime_zero_dropped_witness :
    (Node.mk "aa" none none "a" 7 0 ∈ leafOccs (SerializedTree.mk "merkle-go" 0 "/r"
      (Node.mk "aa" none none "a" 7 0)).Tree) ∧
    ((Load (SerializedTree.mk "merkle-go" 0 "/r"
        (Node.mk "aa" none none "a" 7 0))).Files.lookup
      (goJoin "/r" (Node.mk "aa" none none "a" 7 0).path) = none ∧
     (Load (SerializedTree.mk "merkle-go" 0 "/r"
        (Node.mk "aa" none none "a" 7 0))).TotalSize =
       ((leafOccs (SerializedTree.mk "merkle-go" 0 "/r"
         (Node.mk "aa" none none "a" 7 0)).Tree).map Node.size).sum) :=
  ⟨by decide,
    C9_mtime_zero_dropped (SerializedTree.mk "merkle-go" 0 "/r"
      (Node.mk "aa" none none "a" 7 0)) (Node.mk "aa" none none "a" 7 0)
      (by decide) (by decide) (by decide)⟩

theorem hasOddLevel_two_le {n : Nat} (h : hasOddLevel n = true) : 2 ≤ n := by
  by_contra hc
  rw [hasOddLevel_step, if_pos (by omega : n ≤ 1)] at h
  exact Bool.false_ne_true h

theorem buildLeaves_length (files : List (String × FileData)) (r : String) :
    (buildLeaves files r).length = files.length := by
  unfold buildLeaves sortStrings
  rw [List.length_map, List.length_insertionSort, List.length_map]

theorem wsum_leafFor (cr p : String) (d : FileData) (h : relPath cr p ≠ "") :
    wsum (leafFor cr p d) = d.Size := by
  rw [wsum, leafOccs_leafFor _ _ _ h]
  simp [leafFor, Node.size]

theorem buildLeaves_pos (files : List (String × FileData)) (r : String)
    (hpos : ∀ e ∈ files, 0 < e.2.Size)
    (hrel : ∀ p ∈ keys files, relPath (goClean r) p ≠ "") :
    ∀ n ∈ buildLeaves files r, 0 < wsum n := by
  intro n hn
  obtain ⟨p, hp, rfl⟩ := List.mem_map.mp hn
  have hpk : p ∈ keys files := (List.perm_insertionSort strLe _).subset hp
  rw [wsum_leafFor _ _ _ (hrel p hpk)]
  have hs : (files.lookup p).isSome = true := (lookup_isSome_iff files p).mpr hpk
  cases hlk : files.lookup p with
  | none => rw [hlk] at hs; simp at hs
  | some d => exact hpos (p, d) (mem_of_lookup hlk)

theorem Ssum_buildLeaves (files : List (String × FileData)) (r : String)
    (hnd : (keys files).Nodup)
    (hrel : ∀ p ∈ keys files, relPath (goClean r) p ≠ "") :
    Ssum (buildLeaves files r) = (files.map (fun e => e.2.Size)).sum := by
  unfold Ssum buildLeaves
  rw [List.map_map]
  have hstep : ∀ p ∈ sortStrings (files.map Prod.fst),
      (wsum ∘ fun p => leafFor (goClean r) p ((files.lookup p).getD ⟨"", 0, 0⟩)) p =
        ((files.lookup p).getD ⟨"", 0, 0⟩).Size := by
    intro p hp
    exact wsum_leafFor _ _ _ (hrel p ((List.perm_insertionSort strLe _).subset hp))
  rw [List.map_congr_left hstep]
  have hperm : ((sortStrings (files.map Prod.fst)).map
      (fun p => ((files.lookup p).getD ⟨"", 0, 0⟩).Size)).Perm
      ((files.map Prod.fst).map (fun p => ((files.lookup p).getD ⟨"", 0, 0⟩).Size)) :=
    (List.perm_insertionSort strLe _).map _
  rw [hperm.sum_eq, List.map_map]
  refine congrArg List.sum (List.map_congr_left ?_)
  intro e he
  show ((files.lookup e.1).getD ⟨"", 0, 0⟩).Size = e.2.Size
  rw [lookup_of_mem_nodup hnd he]
  rfl

theorem buildLeaves_ne_nil (files : List (String × FileData)) (r : String)
    (hne : files ≠ []) : buildLeaves files r ≠ [] := by
  intro hc
  have hl := buildLeaves_length files r
  rw [hc] at hl
  cases files with
  | nil => exact hne rfl
  | cons e t => simp at hl

theorem leafOccs_buildLeaves_eq (files : List (String × FileData)) (r : String)
    (hrel : ∀ p ∈ keys files, relPath (goClean r) p ≠ "") :
    ∀ n ∈ buildLeaves files r, leafOccs n = [n] := by
  intro n hn
  obtain ⟨p, hp, rfl⟩ := List.mem_map.mp hn
  exact leafOccs_leafFor _ _ _ (hrel p ((List.perm_insertionSort strLe _).subset hp))

theorem flatten_occs_of_leaves :
    ∀ L : List Node, (∀ n ∈ L, leafOccs n = [n]) → (L.map leafOccs).flatten = L
  | [], _ => rfl
  | n :: t, h => by
    simp only [List.map_cons, List.flatten_cons, h n (List.mem_cons_self _ _)]
    rw [flatten_occs_of_leaves t (fun x hx => h x (List.mem_cons_of_mem _ hx))]
    rfl

theorem wrap64_eq_of_range {z : Int} (h0 : 0 ≤ z) (h1 : z < 2 ^ 63) : wrap64 z = z := by
  unfold wrap64
  rw [Int.emod_eq_of_lt (by omega) (by omega)]
  omega

theorem collectTotal64_eq_fold :
    ∀ (n : Node) (acc : Int),
      collectTotal64 n acc = (leafOccs n).foldl (fun a ln => wrap64 (a + ln.size)) acc
  | .mk h l r p s m, acc => by
    rw [collectTotal64.eq_def, leafOccs.eq_def]
    dsimp only
    rw [List.foldl_append, List.foldl_append]
    have hstep : ((if p ≠ "" then [Node.mk h l r p s m] else []).foldl
        (fun a ln => wrap64 (a + ln.size)) acc) =
        (if p ≠ "" then wrap64 (acc + s) else acc) := by
      by_cases hp : p ≠ ""
      · rw [if_pos hp, if_pos hp]
        rfl
      · rw [if_neg hp, if_neg hp]
        rfl
    rw [hstep]
    cases l with
    | none =>
      cases r with
      | none => rfl
      | some nr =>
        dsimp only
        exact collectTotal64_eq_fold nr _
    | some nl =>
      cases r with
      | none =>
        dsimp only
        exact collectTotal64_eq_fold nl _
      | some nr =>
        dsimp only
        rw [collectTotal64_eq_fold nl _, collectTotal64_eq_fold nr _]

theorem foldl_wrap64_nodes :
    ∀ (l : List Node) (acc : Int), (∀ x ∈ l, 0 ≤ x.size) → 0 ≤ acc →
      acc + (l.map Node.size).sum < 2 ^ 63 →
      l.foldl (fun a ln => wrap64 (a + ln.size)) acc = acc + (l.map Node.size).sum
  | [], acc, _, _, _ => by simp
  | x :: t, acc, hpos, hacc, hlt => by
    have hx : 0 ≤ x.size := hpos x (List.mem_cons_self _ _)
    have htsum : 0 ≤ (t.map Node.size).sum :=
      List.sum_nonneg (by
        intro y hy
        obtain ⟨z, hz, rfl⟩ := List.mem_map.mp hy
        exact hpos z (List.mem_cons_of_mem _ hz))
    have hlt2 : acc + (x.size + (t.map Node.size).sum) < 2 ^ 63 := by
      simpa using hlt
    rw [List.foldl_cons,
      wrap64_eq_of_range (by omega) (by omega),
      foldl_wrap64_nodes t (acc + x.size)
        (fun y hy => hpos y (List.mem_cons_of_mem _ hy)) (by omega) (by omega)]
    simp only [List.map_cons, List.sum_cons]
    ring

theorem foldl_wrap64_files :
    ∀ (l : List (String × FileData)) (acc : Int), (∀ e ∈ l, 0 ≤ e.2.Size) → 0 ≤ acc →
      acc + (l.map (fun e => e.2.Size)).sum < 2 ^ 63 →
      l.foldl (fun a e => wrap64 (a + e.2.Size)) acc =
        acc + (l.map (fun e => e.2.Size)).sum
  | [], acc, _, _, _ => by simp
  | x :: t, acc, hpos, hacc, hlt => by
    have hx : 0 ≤ x.2.Size := hpos x (List.mem_cons_self _ _)
    have htsum : 0 ≤ (t.map (fun e => e.2.Size)).sum :=
      List.sum_nonneg (by
        intro y hy
        obtain ⟨z, hz, rfl⟩ := List.mem_map.mp hy
        exact hpos z (List.mem_cons_of_mem _ hz))
    have hlt2 : acc + (x.2.Size + (t.map (fun e => e.2.Size)).sum) < 2 ^ 63 := by
      simpa using hlt
    rw [List.foldl_cons,
      wrap64_eq_of_range (by omega) (by omega),
      foldl_wrap64_files t (acc + x.2.Size)
        (fun y hy => hpos y (List.mem_cons_of_mem _ hy)) (by omega) (by omega)]
    simp only [List.map_cons, List.sum_cons]
    ring

theorem loadTotal64_eq (s : SerializedTree)
    (hpos : ∀ x ∈ leafOccs s.Tree, 0 ≤ x.size)
    (hfit : wsum s.Tree < 2 ^ 63) :
    loadTotal64 s = wsum s.Tree := by
  have hfit2 : (0 : Int) + ((leafOccs s.Tree).map Node.size).sum < 2 ^ 63 := by
    have h : ((leafOccs s.Tree).map Node.size).sum < 2 ^ 63 := hfit
    omega
  unfold loadTotal64
  rw [collectTotal64_eq_fold, foldl_wrap64_nodes _ 0 hpos le_rfl hfit2]
  have hw : wsum s.Tree = ((leafOccs s.Tree).map Node.size).sum := rfl
  rw [hw]
  omega

theorem buildTotal64_eq (files : List (String × FileData))
    (hpos : ∀ e ∈ files, 0 ≤ e.2.Size)
    (hfit : (files.map (fun e => e.2.Size)).sum < 2 ^ 63) :
    buildTotal64 files = (files.map (fun e => e.2.Size)).sum := by
  unfold buildTotal64
  rw [foldl_wrap64_files files 0 hpos le_rfl (by omega)]
  omega

/-- Counterexample to C10 as stated: a three-file build with all-positive
sizes and an odd leaf level whose reloaded `int64` total size is strictly
SMALLER than the built `int64` total — the empty-string path yields a
leaf with an empty relative path, which the load walk does not count at
all (and the 3-file formula fails as well). -/
theorem C10_counterexample :
    (∀ e ∈ [("", FileData.mk "aa" 100 1), ("a", FileData.mk "bb" 1 1),
      ("b", FileData.mk "cc" 1 1)], 0 < e.2.Size) ∧
    hasOddLevel ([("", FileData.mk "aa" 100 1), ("a", FileData.mk "bb" 1 1),
      ("b", FileData.mk "cc" 1 1)] : List (String × FileData)).length = true ∧
    buildTotal64 [("", FileData.mk "aa" 100 1), ("a", FileData.mk "bb" 1 1),
      ("b", FileData.mk "cc" 1 1)] = 102 ∧
    loadTotal64 (Save (Build [("", FileData.mk "aa" 100 1), ("a", FileData.mk "bb" 1 1),
      ("b", FileData.mk "cc" 1 1)] "/r") 0) = 3 := by
  refine ⟨by decide, ?_, by decide, ?_⟩
  · show hasOddLevel 3 = true
    rw [hasOddLevel_step]
    norm_num
  · have hroot : (Build [("", FileData.mk "aa" 100 1), ("a", FileData.mk "bb" 1 1),
        ("b", FileData.mk "cc" 1 1)] "/r").Root =
        mkParent (mkParent (Node.mk "aa" none none "" 100 1) (Node.mk "bb" none none "a" 1 1))
          (mkParent (Node.mk "cc" none none "b" 1 1) (Node.mk "cc" none none "b" 1 1)) := by
      rw [Build_Root _ _ (by simp)]
      rw [show buildLeaves [("", FileData.mk "aa" 100 1), ("a", FileData.mk "bb" 1 1),
        ("b", FileData.mk "cc" 1 1)] "/r" =
        [Node.mk "aa" none none "" 100 1, Node.mk "bb" none none "a" 1 1,
          Node.mk "cc" none none "b" 1 1] from by decide]
      simp [buildRoot, collapse]
    show collectTotal64 (Build [("", FileData.mk "aa" 100 1), ("a", FileData.mk "bb" 1 1),
      ("b", FileData.mk "cc" 1 1)] "/r").Root 0 = 3
    rw [hroot]
    decide

/-- C10 amended: `Load` recomputes the total size by summing the `Size`
field (in Go `int64` arithmetic) over every leaf occurrence reached by
the left/right walk of the stored tree, and a self-paired odd node is
serialized as two copies, so its leaves are counted twice.  For files
maps with distinct keys, all-positive sizes and non-empty builder-
relative paths, if some pairing level has odd length greater than one
and the duplicated walk total fits in `int64`, the reloaded total
strictly exceeds the built total; and for a three-file map with sorted
paths, nonnegative sizes and `s1 + s2 + 2·s3` in `int64` range, the
reloaded total is exactly `s1 + s2 + 2·s3`.  (Without the range proviso
the conclusion fails — the `int64` accumulator wraps on overflow; and
without the path provisos it fails as well — see the counterexample,
where a leaf with an empty relative path is not counted at all.) -/
theorem C10_duplicated_size_amended (c : Int) :
    (∀ (files : List (String × FileData)) (r : String),
      (keys files).Nodup → (∀ e ∈ files, 0 < e.2.Size) →
      (∀ p ∈ keys files, relPath (goClean r) p ≠ "") →
      hasOddLevel files.length = true →
      wsum (Build files r).Root < 2 ^ 63 →
      buildTotal64 files < loadTotal64 (Save (Build files r) c)) ∧
    (∀ (p1 p2 p3 : String) (d1 d2 d3 : FileData) (r : String),
      strLt p1 p2 → strLt p2 p3 →
      relPath (goClean r) p1 ≠ "" → relPath (goClean r) p2 ≠ "" →
      relPath (goClean r) p3 ≠ "" →
      0 ≤ d1.Size → 0 ≤ d2.Size → 0 ≤ d3.Size →
      d1.Size + d2.Size + 2 * d3.Size < 2 ^ 63 →
      loadTotal64 (Save (Build [(p1, d1), (p2, d2), (p3, d3)] r) c) =
        d1.Size + d2.Size + 2 * d3.Size) := by
  constructor
  · intro files r hnd hpos hrel hodd hfit
    have h2 : 2 ≤ files.length := hasOddLevel_two_le hodd
    have hne : files ≠ [] := by
      intro hc
      rw [hc] at h2
      simp at h2
    have hpos0 : ∀ x ∈ leafOccs (Build files r).Root, 0 ≤ x.size := by
      intro x hx
      rw [Build_Root _ _ hne] at hx
      rw [mem_leafOccs_buildRoot _ (buildLeaves_ne_nil files r hne) x,
        flatten_occs_of_leaves _ (leafOccs_buildLeaves_eq files r hrel)] at hx
      obtain ⟨p, hp, rfl⟩ := List.mem_map.mp hx
      have hpk : p ∈ keys files := (List.perm_insertionSort strLe _).subset hp
      have hs : (files.lookup p).isSome = true := (lookup_isSome_iff files p).mpr hpk
      cases hlk : files.lookup p with
      | none =>
        rw [hlk] at hs
        simp at hs
      | some d =>
        exact le_of_lt (hpos (p, d) (mem_of_lookup hlk))
    have hload : loadTotal64 (Save (Build files r) c) = wsum (Build files r).Root :=
      loadTotal64_eq _ hpos0 hfit
    have hS : (files.map (fun e => e.2.Size)).sum < wsum (Build files r).Root := by
      rw [Build_Root _ _ hne, ← Ssum_buildLeaves files r hnd hrel]
      apply wsum_buildRoot_gt
      · rw [buildLeaves_length]
        exact h2
      · exact buildLeaves_pos files r hpos hrel
      · rw [buildLeaves_length]
        exact hodd
    have hb : buildTotal64 files = (files.map (fun e => e.2.Size)).sum :=
      buildTotal64_eq files (fun e he => le_of_lt (hpos e he)) (lt_trans hS hfit)
    rw [hb, hload]
    exact hS
  · intro p1 p2 p3 d1 d2 d3 r h12 h23 hr1 hr2 hr3 hs1 hs2 hs3 hfit
    have hroot := Build_root_three p1 p2 p3 d1 d2 d3 r h12 h23
    have hws : wsum (Build [(p1, d1), (p2, d2), (p3, d3)] r).Root =
        d1.Size + d2.Size + 2 * d3.Size := by
      rw [hroot, wsum_mkParent, wsum_mkParent, wsum_mkParent,
        wsum_leafFor _ _ _ hr1, wsum_leafFor _ _ _ hr2, wsum_leafFor _ _ _ hr3]
      ring
    have hpos0 : ∀ x ∈ leafOccs (Build [(p1, d1), (p2, d2), (p3, d3)] r).Root,
        0 ≤ x.size := by
      intro x hx
      rw [hroot, leafOccs_mkParent, leafOccs_mkParent, leafOccs_mkParent,
        leafOccs_leafFor _ _ _ hr1, leafOccs_leafFor _ _ _ hr2,
        leafOccs_leafFor _ _ _ hr3] at hx
      simp only [List.mem_append, List.mem_singleton] at hx
      have hsz : x = leafFor (goClean r) p1 d1 ∨ x = leafFor (goClean r) p2 d2 ∨
          x = leafFor (goClean r) p3 d3 := by tauto
      rcases hsz with rfl | rfl | rfl
      · exact hs1
      · exact hs2
      · exact hs3
    have hload : loadTotal64 (Save (Build [(p1, d1), (p2, d2), (p3, d3)] r) c) =
        wsum (Build [(p1, d1), (p2, d2), (p3, d3)] r).Root :=
      loadTotal64_eq _ hpos0 (by
        show wsum (Build [(p1, d1), (p2, d2), (p3, d3)] r).Root < 2 ^ 63
        rw [hws]
        exact hfit)
    rw [hload, hws]

/-- Witness for C10: a three-file build (odd leaf level) with in-range
sizes, checked both for the strict increase and the exact
`s1 + s2 + 2·s3` formula. -/
theorem C10_duplicated_size_amended_witness :
    (buildTotal64 [("/r/a", FileData.mk "aa" 5 1), ("/r/b", FileData.mk "bb" 7 1),
        ("/r/c", FileData.mk "cc" 9 1)] <
      loadTotal64 (Save (Build [("/r/a", FileData.mk "aa" 5 1), ("/r/b", FileData.mk "bb" 7 1),
        ("/r/c", FileData.mk "cc" 9 1)] "/r") 0)) ∧
    loadTotal64 (Save (Build [("/r/a", FileData.mk "aa" 5 1), ("/r/b", FileData.mk "bb" 7 1),
        ("/r/c", FileData.mk "cc" 9 1)] "/r") 0) = 5 + 7 + 2 * 9 :=
  ⟨(C10_duplicated_size_amended 0).1
      [("/r/a", FileData.mk "aa" 5 1), ("/r/b", FileData.mk "bb" 7 1),
        ("/r/c", FileData.mk "cc" 9 1)] "/r"
      (by decide) (by decide) (by decide)
      (by show hasOddLevel 3 = true; rw [hasOddLevel_step]; norm_num)
      (by
        rw [Build_root_three "/r/a" "/r/b" "/r/c" (FileData.mk "aa" 5 1)
          (FileData.mk "bb" 7 1) (FileData.mk "cc" 9 1) "/r" (by decide) (by decide)]
        decide),
    (C10_duplicated_size_amended 0).2 "/r/a" "/r/b" "/r/c"
      (FileData.mk "aa" 5 1) (FileData.mk "bb" 7 1) (FileData.mk "cc" 9 1) "/r"
      (by decide) (by decide) (by decide) (by decide) (by decide)
      (by decide) (by decide) (by decide) (by decide)⟩

/-- Counterexample to C1 as stated: a single-file tree whose file has
modification time 0 (the Unix epoch) — after `load(save(T))` the files
map has lost the path, because the load walk only re-creates entries for
leaves with non-zero mtime. -/
theorem C1_counterexample :
    (Build [("/r/a", FileData.mk "aa" 5 0)] "/r").Files.lookup "/r/a" =
      some (FileData.mk "aa" 5 0) ∧
    (Load (Save (Build [("/r/a", FileData.mk "aa" 5 0)] "/r") 0)).Files.lookup
      "/r/a" = none := by
  constructor
  · decide
  · have hroot : (Build [("/r/a", FileData.mk "aa" 5 0)] "/r").Root =
        leafFor (goClean "/r") "/r/a" (FileData.mk "aa" 5 0) := by
      rw [Build_Root _ _ (by simp)]
      rw [show buildLeaves [("/r/a", FileData.mk "aa" 5 0)] "/r" =
        [leafFor (goClean "/r") "/r/a" (FileData.mk "aa" 5 0)] from by decide]
      simp [buildRoot]
    show ((collectNode "/r" (Build [("/r/a", FileData.mk "aa" 5 0)] "/r").Root
      (0, [])).2).lookup "/r/a" = none
    rw [hroot]
    decide

/-- C1 amended: for trees built from a files map with distinct keys
whose paths survive the builder's relative-path computation (non-empty
relative paths that re-join to the original absolute path) and whose
modification times are non-zero, `load(save(T))` preserves the root
hash and reproduces the files map exactly — the same keys with the same
hash, size and modification-time values.  (As stated over every tree the
claim fails: a file with mtime 0 is dropped from the reloaded map — see
the counterexample.) -/
theorem C1_roundtrip_amended (files : List (String × FileData)) (r : String) (c : Int)
    (hnd : (keys files).Nodup)
    (hrel : ∀ p ∈ keys files, relPath (goClean r) p ≠ "")
    (hjoin : ∀ p ∈ keys files, goJoin r (relPath (goClean r) p) = p)
    (hmt : ∀ e ∈ files, e.2.ModTime ≠ 0) :
    (Load (Save (Build files r) c)).Root.hash = (Build files r).Root.hash ∧
    ∀ q : String, (Load (Save (Build files r) c)).Files.lookup q =
      (Build files r).Files.lookup q := by
  constructor
  · rfl
  · intro q
    by_cases hne : files = []
    · subst hne
      have hl : (Load (Save (Build [] r) c)).Files = [] := by
        show (collectNode r (Node.mk emptyTreeHash none none "" 0 0) (0, [])).2 = []
        rw [collectNode.eq_def]
        simp
      rw [hl]
      rfl
    · have hR : (Save (Build files r) c).Root = r := Build_RootPath files r
      have hocc : ∀ x : Node, x ∈ leafOccs (Save (Build files r) c).Tree ↔
          x ∈ buildLeaves files r := by
        intro x
        show x ∈ leafOccs (Build files r).Root ↔ _
        rw [Build_Root _ _ hne]
        rw [mem_leafOccs_buildRoot _ (buildLeaves_ne_nil files r hne) x,
          flatten_occs_of_leaves _ (leafOccs_buildLeaves_eq files r hrel)]
      by_cases hqk : q ∈ keys files
      · have hs : (files.lookup q).isSome = true := (lookup_isSome_iff files q).mpr hqk
        cases hlk : files.lookup q with
        | none =>
          rw [hlk] at hs
          simp at hs
        | some d =>
          have hcons : ∀ n ∈ leafOccs (Save (Build files r) c).Tree, n.mtime ≠ 0 →
              goJoin (Save (Build files r) c).Root n.path = q →
              FileData.mk n.hash n.size n.mtime = d := by
            intro n hn hm hj
            rw [hocc] at hn
            obtain ⟨p, hp, rfl⟩ := List.mem_map.mp hn
            have hpk : p ∈ keys files := (List.perm_insertionSort strLe _).subset hp
            rw [hR] at hj
            have hj2 : goJoin r (relPath (goClean r) p) = q := hj
            rw [hjoin p hpk] at hj2
            subst hj2
            show FileData.mk ((files.lookup p).getD ⟨"", 0, 0⟩).Hash
              ((files.lookup p).getD ⟨"", 0, 0⟩).Size
              ((files.lookup p).getD ⟨"", 0, 0⟩).ModTime = d
            rw [hlk]
            rfl
          have hanyt : ((leafOccs (Save (Build files r) c).Tree).any
              (fun n => n.mtime != 0 &&
                (goJoin (Save (Build files r) c).Root n.path == q))) = true := by
            apply List.any_eq_true.mpr
            refine ⟨leafFor (goClean r) q ((files.lookup q).getD ⟨"", 0, 0⟩), ?_, ?_⟩
            · rw [hocc]
              exact List.mem_map_of_mem _
                ((List.perm_insertionSort strLe _).symm.subset hqk)
            · rw [Bool.and_eq_true, bne_iff_ne, beq_iff_eq]
              constructor
              · show ((files.lookup q).getD ⟨"", 0, 0⟩).ModTime ≠ 0
                rw [hlk]
                exact hmt (q, d) (mem_of_lookup hlk)
              · show goJoin (Save (Build files r) c).Root (relPath (goClean r) q) = q
                rw [hR]
                exact hjoin q hqk
          rw [Load_files_lookup _ d q hcons, if_pos hanyt, Build_Files _ _ hne, hlk]
      · have hcons : ∀ n ∈ leafOccs (Save (Build files r) c).Tree, n.mtime ≠ 0 →
            goJoin (Save (Build files r) c).Root n.path = q →
            FileData.mk n.hash n.size n.mtime = ⟨"", 0, 0⟩ := by
          intro n hn hm hj
          exfalso
          rw [hocc] at hn
          obtain ⟨p, hp, rfl⟩ := List.mem_map.mp hn
          have hpk : p ∈ keys files := (List.perm_insertionSort strLe _).subset hp
          rw [hR] at hj
          have hj2 : goJoin r (relPath (goClean r) p) = q := hj
          rw [hjoin p hpk] at hj2
          exact hqk (hj2 ▸ hpk)
        have hanyf : ¬ (((leafOccs (Save (Build files r) c).Tree).any
            (fun n => n.mtime != 0 &&
              (goJoin (Save (Build files r) c).Root n.path == q))) = true) := by
          intro hany
          obtain ⟨n, hn, hpred⟩ := List.any_eq_true.mp hany
          rw [Bool.and_eq_true, bne_iff_ne, beq_iff_eq] at hpred
          rw [hocc] at hn
          obtain ⟨p, hp, rfl⟩ := List.mem_map.mp hn
          have hpk : p ∈ keys files := (List.perm_insertionSort strLe _).subset hp
          have hj2 : goJoin r (relPath (goClean r) p) = q := by
            have h3 := hpred.2
            rw [hR] at h3
            exact h3
          rw [hjoin p hpk] at hj2
          exact hqk (hj2 ▸ hpk)
        rw [Load_files_lookup _ ⟨"", 0, 0⟩ q hcons, if_neg hanyf, Build_Files _ _ hne]
        exact ((lookup_eq_none_iff files q).mpr hqk).symm

/-- Witness for C1: a two-file build with non-zero mtimes round-trips. -/
theorem C1_roundtrip_amended_witness :
    (keys [("/r/a", FileData.mk "aa" 1 7), ("/r/b", FileData.mk "bb" 2 9)]).Nodup ∧
    ((Load (Save (Build [("/r/a", FileData.mk "aa" 1 7),
        ("/r/b", FileData.mk "bb" 2 9)] "/r") 0)).Root.hash =
      (Build [("/r/a", FileData.mk "aa" 1 7),
        ("/r/b", FileData.mk "bb" 2 9)] "/r").Root.hash ∧
     ∀ q : String, (Load (Save (Build [("/r/a", FileData.mk "aa" 1 7),
        ("/r/b", FileData.mk "bb" 2 9)] "/r") 0)).Files.lookup q =
      (Build [("/r/a", FileData.mk "aa" 1 7),
        ("/r/b", FileData.mk "bb" 2 9)] "/r").Files.lookup q) :=
  ⟨by decide,
    C1_roundtrip_amended [("/r/a", FileData.mk "aa" 1 7), ("/r/b", FileData.mk "bb" 2 9)]
      "/r" 0 (by decide) (by decide) (by decide) (by decide)⟩

end MG
